import Mathlib

/-!
Verification development for the SW-QPS / SB-QPS crossbar scheduling engine.

The definitions below are a shallow embedding of the C++ sources:
  * the HLS sliding-window engine (`input_port.h`, `output_port.h`,
    `sliding_window.h`, `qps_sampler.cpp`, `utils.h`);
  * the saber batch scheduler (`src/scheduler/sb_qps.cc`, `sb_qps.h`).

Machine integers are modelled as `Nat` (or `Int` where the source uses
signed `int`) with explicit truncation where the programs rely on a fixed
width.  Fixed-size C arrays indexed by ports and slots become functions out
of `Fin N` / `Fin T`.
-/

set_option maxRecDepth 4000

namespace SWQPS

/-! ### Constants (sw_qps_types.h) -/

/-- Number of input/output ports. -/
def N : Nat := 64
/-- Window size in time slots. -/
def T : Nat := 16
/-- Maximum queue length.  The aggressive-variant `sw_qps_types.h` is not
part of the sources; the value is the one of the log-diagonal project
header. -/
def MAX_VOQ_LEN : Nat := 1024
/-- Knockout threshold: maximal number of proposals an output considers. -/
def KNOCKOUT_THRESH : Nat := 3
/-- Marker for an unmatched port / no slot. -/
def INVALID_PORT : Nat := 127

/-- All-ones availability bitmap `~avail_bitmap_t(0)` of width `T`. -/
def fullBitmap : Nat := 2 ^ T - 1

/-- Clearing a bit inside a `T`-wide register:
`bm &= ~(avail_bitmap_t(1) << slot)`.  The complement is taken at width
`T`, which is `(2^T - 1) ^^^ (1 <<< slot)` on `Nat`. -/
def clearBit (bm slot : Nat) : Nat := bm &&& ((2 ^ T - 1) ^^^ (1 <<< slot))

/-! ### Message structures (sw_qps_types.h, aggressive variant)

The aggressive variant of `sw_qps_types.h` is not among the sources; the
`Proposal`/`Accept` fields are taken from their uses in `input_port.h`,
`output_port.h` and `sliding_window.h` (`output_id` in `Proposal` and
`input_id` in `Accept` are required by the routing code). -/

structure Proposal where
  input_id : Nat
  output_id : Nat
  voq_len : Nat
  availability : Nat
  valid : Bool
deriving DecidableEq, Repr

structure Accept where
  output_id : Nat
  input_id : Nat
  time_slot : Nat
  valid : Bool
deriving DecidableEq, Repr

/-! ### VOQ state and the QPS sampler (qps_sampler.cpp) -/

structure VOQState where
  lengths : Fin N → Nat
  sum : Nat
  availability : Nat
deriving DecidableEq

/-- Total array access `voq_state.lengths[k]` for a `Nat` index that the
source has already range-checked. -/
def VOQState.len (v : VOQState) (k : Nat) : Nat :=
  if h : k < N then v.lengths ⟨k, h⟩ else 0

/-- The scan loop of `QPSSampler::sample`: starting at index `i` with
accumulated `cum`, return the first `k` with `target < cum + len i + ... +
len k`; the fall-through `return 0` of the source is the fuel-0 case. -/
def scanFrom (len : Nat → Nat) (target : Nat) : Nat → Nat → Nat → Nat
  | _, _, 0 => 0
  | cum, i, fuel + 1 =>
    if target < cum + len i then i
    else scanFrom len target (cum + len i) (i + 1) fuel

/-- `QPSSampler::sample` (the linear-scan sampler of `qps_sampler.cpp`). -/
def sample (v : VOQState) (random_num : Nat) : Nat :=
  if v.sum = 0 then INVALID_PORT
  else scanFrom (fun k => v.len k) (random_num % v.sum) 0 0 N

/-- Prefix sum of a weight vector: `prefSum len j = len 0 + ... + len
(j-1)`; the sampling contract is stated with it. -/
def prefSum (len : Nat → Nat) (j : Nat) : Nat := ∑ k ∈ Finset.range j, len k

/-! ### LFSR (utils.h) -/

/-- `lfsr_next`: 32-bit LFSR with taps 31, 21, 1, 0. -/
def lfsr_next (s : Nat) : Nat :=
  let feedback := (((s.testBit 31).xor (s.testBit 21)).xor
      ((s.testBit 1).xor (s.testBit 0)))
  (((s <<< 1) % 2 ^ 32) ||| (if feedback then 1 else 0))

/-! ### Bitmap algebra (utils.h) -/

/-- The priority-encoder loop of `find_first_set`, scanning bits `i`,
`i+1`, ... with the given fuel. -/
def findFirstSetFrom (bm : Nat) : Nat → Nat → Nat
  | _, 0 => INVALID_PORT
  | i, fuel + 1 => if bm.testBit i then i else findFirstSetFrom bm (i + 1) fuel

/-- `find_first_set`: index of the least-significant set bit among bits
`0..T-1`, or `INVALID_PORT` when none is set. -/
def find_first_set (bm : Nat) : Nat := findFirstSetFrom bm 0 T

/-- `first_fit_accept`: earliest mutually-available slot. -/
def first_fit_accept (input_avail output_avail : Nat) : Nat :=
  find_first_set (input_avail &&& output_avail)

/-! ### Input port (input_port.h, aggressive variant = part_002) -/

structure InputPort where
  port_id : Nat
  voq_state : VOQState
  availability : Nat
  schedule : Fin T → Nat
  lfsr_state : Nat
deriving DecidableEq

namespace InputPort

/-- `InputPort::initialize(id, seed)`. -/
def initPort (id seed : Nat) : InputPort where
  port_id := id
  voq_state := { lengths := fun _ => 0, sum := 0, availability := fullBitmap }
  availability := fullBitmap
  schedule := fun _ => INVALID_PORT
  lfsr_state := seed + id

/-- `InputPort::addPacket(output_port, num_packets)`. -/
def addPacket (p : InputPort) (output_port : Nat) (num_packets : Nat := 1) :
    InputPort :=
  if h : output_port < N ∧ p.voq_state.len output_port < MAX_VOQ_LEN then
    { p with voq_state :=
        { p.voq_state with
          lengths := Function.update p.voq_state.lengths ⟨output_port, h.1⟩
            (p.voq_state.len output_port + num_packets)
          sum := p.voq_state.sum + num_packets } }
  else p

/-- `InputPort::removePacket(output_port)` (the release behaviour:
no mutation on an empty VOQ; the debug build asserts instead). -/
def removePacket (p : InputPort) (output_port : Nat) : InputPort :=
  if h : output_port < N ∧ 0 < p.voq_state.len output_port then
    { p with voq_state :=
        { p.voq_state with
          lengths := Function.update p.voq_state.lengths ⟨output_port, h.1⟩
            (p.voq_state.len output_port - 1)
          sum := p.voq_state.sum - 1 } }
  else p

/-- `InputPort::isOutputMatched(output)`. -/
def isOutputMatched (p : InputPort) (output : Nat) : Bool :=
  decide (∃ i : Fin T, p.schedule i = output)

/-- The base proposal built at the top of `InputPort::generateProposal`. -/
def baseProposal (p : InputPort) : Proposal where
  input_id := p.port_id
  output_id := INVALID_PORT
  voq_len := 0
  availability := p.availability
  valid := false

/-- The attempt loop of `InputPort::generateProposal`
(`MAX_ATTEMPTS = N`); each attempt advances the LFSR, samples an output
and checks that it is valid, backlogged and unmatched in the window. -/
def genLoop (p : InputPort) : Nat → Proposal × InputPort
  | 0 => (p.baseProposal, p)
  | fuel + 1 =>
    let p' : InputPort := { p with lfsr_state := lfsr_next p.lfsr_state }
    let sampled := sample p'.voq_state p'.lfsr_state
    if sampled ≠ INVALID_PORT ∧ 0 < p'.voq_state.len sampled ∧
        ¬ p'.isOutputMatched sampled then
      ({ p'.baseProposal with
          output_id := sampled
          voq_len := p'.voq_state.len sampled
          valid := true }, p')
    else if p'.voq_state.sum = 0 then (p'.baseProposal, p')
    else genLoop p' fuel

/-- `InputPort::generateProposal()`. -/
def generateProposal (p : InputPort) : Proposal × InputPort := genLoop p N

/-- `InputPort::loadTraffic(lengths)`: overwrite the VOQ lengths and
recompute the cached sum. -/
def loadTraffic (p : InputPort) (lens : Fin N → Nat) : InputPort :=
  { p with voq_state :=
      { p.voq_state with lengths := lens, sum := ∑ j, lens j } }

/-- `InputPort::processAccept(accept)`. -/
def processAccept (p : InputPort) (a : Accept) : InputPort :=
  if a.valid = true ∧ a.time_slot < T then
    let availability' := clearBit p.availability a.time_slot
    let schedule' : Fin T → Nat :=
      fun t => if t.val = a.time_slot then a.output_id else p.schedule t
    let voq' :=
      if h : a.output_id < N ∧ 0 < p.voq_state.len a.output_id then
        { p.voq_state with
          lengths := Function.update p.voq_state.lengths ⟨a.output_id, h.1⟩
            (p.voq_state.len a.output_id - 1)
          sum := p.voq_state.sum - 1
          availability := availability' }
      else { p.voq_state with availability := availability' }
    { p with
      availability := availability'
      schedule := schedule'
      voq_state := voq' }
  else p

/-- `InputPort::graduateSlot(matched, output_port)`: shift the window.
Packet removal happened at accept time; the arguments are unused. -/
def graduateSlot (p : InputPort) (_matched : Bool) (_output_port : Nat) :
    InputPort :=
  let availability' := (p.availability >>> 1) ||| (1 <<< (T - 1))
  { p with
    schedule := fun t =>
      if h : t.val + 1 < T then p.schedule ⟨t.val + 1, h⟩ else INVALID_PORT
    availability := availability'
    voq_state := { p.voq_state with availability := availability' } }

end InputPort

/-- Input-port states reachable through the operations the engine performs
on an input port: initialisation, arrivals, removals, accepts, graduations,
proposal generation (which touches only the LFSR) and traffic loading. -/
inductive ReachIP : InputPort → Prop
  | init (id seed : Nat) : ReachIP (InputPort.initPort id seed)
  | add {p : InputPort} (j k : Nat) : ReachIP p → ReachIP (p.addPacket j k)
  | remove {p : InputPort} (j : Nat) : ReachIP p → ReachIP (p.removePacket j)
  | accept {p : InputPort} (a : Accept) : ReachIP p → ReachIP (p.processAccept a)
  | graduate {p : InputPort} (m : Bool) (o : Nat) :
      ReachIP p → ReachIP (p.graduateSlot m o)
  | propose {p : InputPort} : ReachIP p → ReachIP p.generateProposal.2
  | load {p : InputPort} (lens : Fin N → Nat) :
      ReachIP p → ReachIP (p.loadTraffic lens)

/-! ### Output port (output_port.h = part_001) -/

structure Calendar where
  schedule : Fin T → Nat
  availability : Nat
deriving DecidableEq

structure OutputPort where
  port_id : Nat
  calendar : Calendar
deriving DecidableEq

namespace OutputPort

/-- `OutputPort::initialize(id)`. -/
def initPort (id : Nat) : OutputPort where
  port_id := id
  calendar := { schedule := fun _ => INVALID_PORT, availability := fullBitmap }

/-- Index of the leftmost proposal with strictly maximal `voq_len`
(the inner scan of the selection sort), scanning `l` with `cur` the index
of its head and `(best, bestLen)` the best seen so far. -/
def maxIdxAux : List Proposal → Nat → Nat → Nat → Nat
  | [], _, best, _ => best
  | q :: rest, cur, best, bestLen =>
    if bestLen < q.voq_len then maxIdxAux rest (cur + 1) cur q.voq_len
    else maxIdxAux rest (cur + 1) best bestLen

/-- Index of the leftmost maximal proposal of a nonempty list. -/
def maxIdx (x : Proposal) (xs : List Proposal) : Nat :=
  maxIdxAux xs 1 0 x.voq_len

/-- One pass of the selection sort: extract the leftmost maximal proposal
and swap the head into its position (mirroring the array swap of
`OutputPort::processProposals`). -/
def selSwap (x : Proposal) (xs : List Proposal) : Proposal × List Proposal :=
  let k := maxIdx x xs
  let l := x :: xs
  (l.getD k x, ((l.set k x).tail))

/-- The selection sort of `OutputPort::processProposals`, producing the
first `k` selected proposals in selection order. -/
def sortTopK : Nat → List Proposal → List Proposal
  | 0, _ => []
  | _ + 1, [] => []
  | k + 1, x :: xs =>
    let (m, rest) := selSwap x xs
    m :: sortTopK k rest

/-- The First-Fit-Accept loop: walk the sorted proposals, skip invalid
ones, and stop at the first proposal with a mutually available slot. -/
def ffaScan (avail : Nat) : List Proposal → Option (Proposal × Nat)
  | [] => none
  | q :: rest =>
    if q.valid = true then
      if first_fit_accept q.availability avail ≠ INVALID_PORT then
        some (q, first_fit_accept q.availability avail)
      else ffaScan avail rest
    else ffaScan avail rest

/-- `OutputPort::processProposals(proposals, num_proposals, accepts,
num_accepts)`: knockout filter followed by FFA, at most one accept. -/
def processProposals (o : OutputPort) (proposals : List Proposal) :
    List Accept × OutputPort :=
  let num_to_process := min proposals.length KNOCKOUT_THRESH
  let sorted := sortTopK num_to_process proposals
  match ffaScan o.calendar.availability sorted with
  | none => ([], o)
  | some (q, slot) =>
    ([{ output_id := o.port_id, input_id := q.input_id,
        time_slot := slot, valid := true }],
      { o with calendar :=
          { schedule := fun t =>
              if t.val = slot then q.input_id else o.calendar.schedule t
            availability := clearBit o.calendar.availability slot } })

/-- The ordering the specification prescribes for the knockout filter:
decreasing `voq_len` with ties broken by smaller `input_id`.  This
definition follows the spec's words; it is compared against the
selection sort the source implements. -/
def claimConsider (l : List Proposal) : List Proposal :=
  (l.insertionSort fun p q =>
    q.voq_len < p.voq_len ∨
      (q.voq_len = p.voq_len ∧ p.input_id ≤ q.input_id)).take
    (min l.length KNOCKOUT_THRESH)

/-- First-fit acceptance over the spec-prescribed order (the accept the
claim's sentence predicts). -/
def claimAccept (avail : Nat) (l : List Proposal) : Option (Proposal × Nat) :=
  ffaScan avail (claimConsider l)

/-- `OutputPort::graduateSlot()`: senior match and the shifted calendar. -/
def graduateSlot (o : OutputPort) : Nat × OutputPort :=
  (o.calendar.schedule ⟨0, by decide⟩,
    { o with calendar :=
        { schedule := fun t =>
            if h : t.val + 1 < T then o.calendar.schedule ⟨t.val + 1, h⟩
            else INVALID_PORT
          availability := (o.calendar.availability >>> 1) ||| (1 <<< (T - 1)) } })

end OutputPort

/-! ### Sliding window manager (sliding_window.h) -/

structure SWState where
  input_ports : Fin N → InputPort
  output_ports : Fin N → OutputPort
  current_time_slot : Nat
  current_frame_slot : Nat
  total_matched_pairs : Nat
  total_iterations : Nat
deriving DecidableEq

namespace SWState

/-- `SlidingWindowManager::initialize(seed)` (ports `i` are initialised
with per-port seed `seed + i*1000`). -/
def swInit (seed : Nat) : SWState where
  input_ports := fun i => InputPort.initPort i.val (seed + i.val * 1000)
  output_ports := fun i => OutputPort.initPort i.val
  current_time_slot := 0
  current_frame_slot := 0
  total_matched_pairs := 0
  total_iterations := 0

/-- `SlidingWindowManager::addPacket(input, output)`. -/
def swAddPacket (s : SWState) (input output : Nat) : SWState :=
  if h : input < N ∧ output < N then
    { s with
      input_ports :=
        Function.update s.input_ports ⟨input, h.1⟩
          ((s.input_ports ⟨input, h.1⟩).addPacket output) }
  else s

/-- The propose phase of `SlidingWindowManager::runIteration`: each input
port generates one proposal; valid proposals with an in-range target are
collected (in port order).  Bucketing by `output_id` is recovered below by
filtering this list, which agrees with the per-output arrays of the source
because each input contributes at most one proposal (so no bucket can
overflow its capacity `N`). -/
def proposePhase (ins : Fin N → InputPort) :
    List (Fin N) → (Fin N → InputPort) × List Proposal
  | [] => (ins, [])
  | i :: rest =>
    let g := (ins i).generateProposal
    let r := proposePhase (Function.update ins i g.2) rest
    (r.1,
      (if g.1.valid = true ∧ g.1.output_id ≠ INVALID_PORT ∧
          g.1.output_id < N then [g.1] else []) ++ r.2)

/-- Routing of the accepts of one output back to the input ports
(the inner loop of the accept phase). -/
def routeAccepts (ins : Fin N → InputPort) (accepts : List Accept) :
    Fin N → InputPort :=
  accepts.foldl
    (fun ins a =>
      if h : a.valid = true ∧ a.input_id < N then
        Function.update ins ⟨a.input_id, h.2⟩
          ((ins ⟨a.input_id, h.2⟩).processAccept a)
      else ins)
    ins

/-- The accept phase of `SlidingWindowManager::runIteration`: each output
port processes its bucket of proposals and the resulting accepts are routed
back. -/
def acceptPhase (props : List Proposal) :
    List (Fin N) → (Fin N → InputPort) → (Fin N → OutputPort) →
      (Fin N → InputPort) × (Fin N → OutputPort)
  | [], ins, outs => (ins, outs)
  | o :: rest, ins, outs =>
    let pr := (outs o).processProposals (props.filter (fun p => p.output_id = o.val))
    acceptPhase props rest (routeAccepts ins pr.1)
      (Function.update outs o pr.2)

/-- `SlidingWindowManager::runIteration()`. -/
def runIteration (s : SWState) : SWState :=
  let pp := proposePhase s.input_ports (List.finRange N)
  let ap := acceptPhase pp.2 (List.finRange N) pp.1 s.output_ports
  { s with
    input_ports := ap.1
    output_ports := ap.2
    total_iterations := s.total_iterations + 1
    current_frame_slot :=
      if s.current_frame_slot + 1 ≥ T then 0 else s.current_frame_slot + 1 }

/-- The first loop of `SlidingWindowManager::graduateMatching`: graduate
the output ports (collecting the matching) and notify the matched inputs. -/
def gradOutputs (m : Fin N → Nat) :
    List (Fin N) → (Fin N → InputPort) → (Fin N → OutputPort) →
      (Fin N → InputPort) × (Fin N → OutputPort)
  | [], ins, outs => (ins, outs)
  | o :: rest, ins, outs =>
    let g := (outs o).graduateSlot
    let ins' :=
      if g.1 ≠ INVALID_PORT then
        if h : g.1 < N then
          Function.update ins ⟨g.1, h⟩
            ((ins ⟨g.1, h⟩).graduateSlot true o.val)
        else ins
      else ins
    gradOutputs m rest ins' (Function.update outs o g.2)

/-- The second loop of `SlidingWindowManager::graduateMatching`: shift the
windows of the unmatched input ports. -/
def gradUnmatched (m : Fin N → Nat) :
    List (Fin N) → (Fin N → InputPort) → (Fin N → InputPort)
  | [], ins => ins
  | i :: rest, ins =>
    let matched := decide (∃ o : Fin N, m o = i.val)
    gradUnmatched m rest
      (if matched then ins
       else Function.update ins i ((ins i).graduateSlot false INVALID_PORT))

/-- Number of matched outputs, `result.matching_size`. -/
def matchingSize (m : Fin N → Nat) : Nat :=
  ((List.finRange N).filter (fun o => m o ≠ INVALID_PORT)).length

/-- `SlidingWindowManager::graduateMatching()`: the emitted matching
(`matching[output] = input` or `INVALID_PORT`) together with the shifted
state. -/
def graduateMatching (s : SWState) : (Fin N → Nat) × SWState :=
  let m : Fin N → Nat :=
    fun o => (s.output_ports o).calendar.schedule ⟨0, by decide⟩
  let go := gradOutputs m (List.finRange N) s.input_ports s.output_ports
  let ins' := gradUnmatched m (List.finRange N) go.1
  (m,
    { s with
      input_ports := ins'
      output_ports := go.2
      total_matched_pairs := s.total_matched_pairs + matchingSize m
      current_time_slot := s.current_time_slot + 1 })

/-- Input ports carry their index as `port_id` (as `initialize` sets and
every operation preserves). -/
def InvPid (ins : Fin N → InputPort) : Prop :=
  ∀ i : Fin N, (ins i).port_id = i.val

/-- Per-slot injectivity of the calendars: an in-range input bound at a
slot of one output's calendar is bound there by no other output. -/
def InvUniq (outs : Fin N → OutputPort) : Prop :=
  ∀ o o' : Fin N, ∀ t : Fin T,
    (outs o).calendar.schedule t < N →
    (outs o').calendar.schedule t = (outs o).calendar.schedule t →
    o' = o

/-- An input whose availability bit at a slot is still set appears in no
output calendar at that slot. -/
def InvFree (ins : Fin N → InputPort) (outs : Fin N → OutputPort) : Prop :=
  ∀ (i : Fin N) (t : Fin T),
    (ins i).availability.testBit t.val = true →
    ∀ o : Fin N, (outs o).calendar.schedule t ≠ i.val

/-- Every calendar entry is an in-range input or `INVALID_PORT`. -/
def InvRange (outs : Fin N → OutputPort) : Prop :=
  ∀ (o : Fin N) (t : Fin T),
    (outs o).calendar.schedule t < N ∨
    (outs o).calendar.schedule t = INVALID_PORT

/-- The scheduling invariant of the sliding-window engine. -/
def Inv (s : SWState) : Prop :=
  InvPid s.input_ports ∧ InvUniq s.output_ports ∧
    InvFree s.input_ports s.output_ports ∧ InvRange s.output_ports

/-- Reachable engine states: any seed at initialisation, any sequence of
arrivals, iterations and graduations (the operations the top-level
`sw_qps_top` drives). -/
inductive Reachable : SWState → Prop
  | init (seed : Nat) : Reachable (swInit seed)
  | add {s : SWState} (i j : Nat) : Reachable s → Reachable (swAddPacket s i j)
  | iter {s : SWState} : Reachable s → Reachable (runIteration s)
  | grad {s : SWState} : Reachable s → Reachable (graduateMatching s).2

end SWState

/-- An input port whose VOQ towards output 5 has saturated
`MAX_VOQ_LEN`. -/
def satPort : InputPort :=
  { InputPort.initPort 0 12345 with
    voq_state :=
      { lengths := fun j => if j.val = 5 then MAX_VOQ_LEN else 0
        sum := MAX_VOQ_LEN
        availability := fullBitmap } }

/-- An engine state with input port 0 saturated towards output 5. -/
def satState : SWState :=
  { SWState.swInit 12345 with
    input_ports :=
      Function.update (SWState.swInit 12345).input_ports ⟨0, by decide⟩ satPort }

/-- Proposal of input 0 (VOQ length 1, all slots free). -/
def propA : Proposal :=
  { input_id := 0, output_id := 3, voq_len := 1, availability := fullBitmap,
    valid := true }

/-- Proposal of input 1 (VOQ length 1, all slots free). -/
def propB : Proposal :=
  { input_id := 1, output_id := 3, voq_len := 1, availability := fullBitmap,
    valid := true }

/-- Proposal of input 2 (VOQ length 5, no free slot). -/
def propC : Proposal :=
  { input_id := 2, output_id := 3, voq_len := 5, availability := 0,
    valid := true }

end SWQPS

namespace Saber

/-! ### The saber batch scheduler (src/scheduler/sb_qps.cc, sb_qps.h)

`BST::update`, `BST::upper_bound`, `BST::nearest_power_of_two` and
`batch_scheduler.h` are referenced but not among the sources; they are
modelled from the specification where needed (see the individual
doc comments). -/

/-- Width of one frame block, `std::bitset<FRAME_SIZE_BLOCK>`.
Modelled from the spec: `FRAME_SIZE_BLOCK` is defined in the missing
`batch_scheduler.h`; the spec gives the bitmap width as 64 or 128. -/
def FRAME_SIZE_BLOCK : Nat := 64

/-- Modelled from the spec: `BST::update(leaf, delta)` of the missing BST
header walks leaf→root (halving the index) adding `delta` to every node on
the path; the tree is rooted at index 1. -/
def bstUpdate (v : Nat → Int) (pos : Nat) (d : Int) : Nat → Int :=
  if pos = 0 then v
  else bstUpdate (fun k => if k = pos then v k + d else v k) (pos / 2) d
termination_by pos
decreasing_by exact Nat.div_lt_self (Nat.pos_of_ne_zero (by assumption)) one_lt_two

/-- Modelled from the spec: `BST::upper_bound(r)` of the missing BST header
descends `d` levels from node `pos`: go left when `r` is below the left
child's weight, otherwise subtract it and go right. -/
def bstUpperBound (v : Nat → Nat) : Nat → Nat → Nat → Nat
  | 0, pos, _ => pos
  | d + 1, pos, r =>
    if r < v (2 * pos) then bstUpperBound v d (2 * pos) r
    else bstUpperBound v d (2 * pos + 1) (r - v (2 * pos))

/-- Sum of the tree values over an index interval (used to state the
`upper_bound` contract over the leaf level). -/
def leafSum (v : Nat → Nat) (a b : Nat) : Nat := ∑ m ∈ Finset.Ico a b, v m

/-! ### VOQ tracking state: per-input BST plus `_cf_packets_counter`

The coupled updates are those of `handle_arrivals`, `handle_departures`
and the back-fill / post-optimization bindings: every one of them performs
`BST::update<int>(_bst[i], j + _left_start, ±1)` together with
`±± _cf_packets_counter[i][j]`. -/

structure VOQTrack (n : Nat) where
  bst : Fin n → Nat → Int
  cf_packets_counter : Fin n → Fin n → Int

/-- One arrival `(i, j)` as processed by `handle_arrivals`. -/
def handleArrival {n : Nat} (P : Nat) (st : VOQTrack n) (i j : Fin n) :
    VOQTrack n where
  bst := Function.update st.bst i (bstUpdate (st.bst i) (j.val + P) 1)
  cf_packets_counter := fun a b =>
    if a = i ∧ b = j then st.cf_packets_counter a b + 1
    else st.cf_packets_counter a b

/-- One (virtual) departure `(i, j)` as processed by `handle_departures`
(and, identically, by the back-fill and post-optimization bindings). -/
def handleDeparture {n : Nat} (P : Nat) (st : VOQTrack n) (i j : Fin n) :
    VOQTrack n where
  bst := Function.update st.bst i (bstUpdate (st.bst i) (j.val + P) (-1))
  cf_packets_counter := fun a b =>
    if a = i ∧ b = j then st.cf_packets_counter a b - 1
    else st.cf_packets_counter a b

/-- The all-zero tracking state produced by the constructor and by
`reset()`. -/
def zeroTrack (n : Nat) : VOQTrack n where
  bst := fun _ _ => 0
  cf_packets_counter := fun _ _ => 0

/-- Tracking states reachable through arrivals and departures; a departure
`(i, j)` fires only under `assert(_cf_packets_counter[s][d] > 0)` (the
assertion guarding `handle_departures`). -/
inductive ReachVOQ (n P : Nat) : VOQTrack n → Prop
  | init : ReachVOQ n P (zeroTrack n)
  | arrival {st : VOQTrack n} (i j : Fin n) :
      ReachVOQ n P st → ReachVOQ n P (handleArrival P st i j)
  | departure {st : VOQTrack n} (i j : Fin n) :
      0 < st.cf_packets_counter i j →
      ReachVOQ n P st → ReachVOQ n P (handleDeparture P st i j)

/-! ### std::mt19937

A model of the standard Mersenne twister engine: `mtWordC seed i` is the
`i`-th word `X_i` of the recurrence (the first 624 from the seeding
procedure, the rest from the twist), and an engine state is the seed plus
the number of draws made so far.  The `k`-th call (0-based) returns
`X_{k+624}` tempered. -/

/-- The seeding recurrence of `std::mt19937`:
`x[i] = 1812433253 * (x[i-1] ^ (x[i-1] >> 30)) + i (mod 2^32)`. -/
def mtSeedWord (seed : Nat) : Nat → Nat
  | 0 => seed % 2 ^ 32
  | i + 1 =>
    let w := mtSeedWord seed i
    (1812433253 * (w ^^^ (w >>> 30)) + (i + 1)) % 2 ^ 32

/-- The twist step combining `X_{i-624}`, `X_{i-623}` and `X_{i-227}`. -/
def mtTwist (a b c : Nat) : Nat :=
  let y := (a &&& 2147483648) ||| (b &&& 2147483647)
  (c ^^^ (y >>> 1)) ^^^ (if y % 2 = 1 then 2567483615 else 0)

/-- The word recurrence, with fuel making the recursion structural
(each recursive index drops by at least 227, so fuel `i` suffices). -/
def mtWordAux (seed : Nat) : Nat → Nat → Nat
  | 0, i => mtSeedWord seed i
  | fuel + 1, i =>
    if i < 624 then mtSeedWord seed i
    else
      mtTwist (mtWordAux seed fuel (i - 624)) (mtWordAux seed fuel (i - 623))
        (mtWordAux seed fuel (i - 227))

/-- `X_i`, the `i`-th word of the mt19937 recurrence for `seed`. -/
def mtWordC (seed i : Nat) : Nat := mtWordAux seed i i

/-- The mt19937 tempering transform. -/
def mtTemper (x : Nat) : Nat :=
  let y1 := x ^^^ (x >>> 11)
  let y2 := y1 ^^^ (((y1 <<< 7) % 2 ^ 32) &&& 2636928640)
  let y3 := y2 ^^^ (((y2 <<< 15) % 2 ^ 32) &&& 4022730752)
  y3 ^^^ (y3 >>> 18)

/-- An `std::mt19937` engine state: the construction seed together with the
number of values drawn so far. -/
structure MT where
  seed : Nat
  pos : Nat
deriving DecidableEq

/-- `std::mt19937 eng(seed)`. -/
def mtInit (seed : Nat) : MT := ⟨seed, 0⟩

/-- The value returned by the next call of the engine. -/
def mtOutput (m : MT) : Nat := mtTemper (mtWordC m.seed (m.pos + 624))

/-- Drawing one value advances the engine. -/
def mtDraw (m : MT) : MT := { m with pos := m.pos + 1 }

/-! ### SB_QPS_HalfHalf_Oblivious state (src/scheduler/sb_qps.cc) -/

structure SBHH (n : Nat) where
  seed : Nat
  eng : MT
  track : VOQTrack n
  match_flag_in : Fin n → Nat
  match_flag_out : Fin n → Nat
  cf_rel_time : Nat
  schedules : Nat → Fin n → Int
  in_match : Fin n → Int

/-- The constructor `SB_QPS_HalfHalf_Oblivious(name, num_inputs,
num_outputs, frame_size, seed)`: seeds the engine, zeroes the BSTs and
counters, fills `_schedules` with `-1`.  The base-class state
(`batch_scheduler.h` is not among the sources) is modelled from the spec:
`_in_match` starts unmatched. -/
def sbhhConstruct (n : Nat) (seed : Nat) : SBHH n where
  seed := seed
  eng := mtInit seed
  track := zeroTrack n
  match_flag_in := fun _ => 0
  match_flag_out := fun _ => 0
  cf_rel_time := 0
  schedules := fun _ _ => -1
  in_match := fun _ => -1

/-- `SB_QPS_HalfHalf_Oblivious::reset()`: `BatchScheduler::reset()`
(modelled from the spec: zero the base-class state), `bitmap_reset()`,
zero the BSTs and counters, reset the frame clock and clear the schedules.
The engine `_eng` is not mentioned. -/
def sbhhReset {n : Nat} (st : SBHH n) : SBHH n where
  seed := st.seed
  eng := st.eng
  track := zeroTrack n
  match_flag_in := fun _ => 0
  match_flag_out := fun _ => 0
  cf_rel_time := 0
  schedules := fun _ _ => -1
  in_match := fun _ => -1

/-! ### The Half-Half accept phase (SB_QPS_HalfHalf_Oblivious::qps, Step 2) -/

/-- The backward scan of the top-2 back-fill:
`for (int f = frame_id - 1; f >= 0; --f) if (!mf.test(f)) { ...; break; }`;
returns the largest `f < frame_id` with the bit clear. -/
def scanBack (mf : Nat) : Nat → Option Nat
  | 0 => none
  | f + 1 => if mf.testBit f = false then some f else scanBack mf f

/-- Match-flag state of one accept-phase step (the loop body of Step 2 of
`SB_QPS_HalfHalf_Oblivious::qps` for one output `out`, given the surviving
proposers `out_accepts[out] = [top1, top2]`).  The top-2 proposal (when
present and `max_accepts > 1`) is back-filled at the largest earlier slot
where both masks are clear; the top-1 proposal is bound at `frame_id`. -/
def hhAcceptOut {n : Nat} (st : SBHH n) (frame_id max_accepts : Nat)
    (top1 : Fin n) (top2 : Option (Fin n)) (out : Fin n) : SBHH n :=
  let st1 :=
    match top2 with
    | some in2 =>
      if 1 < max_accepts then
        match scanBack ((st.match_flag_in in2) ||| (st.match_flag_out out))
            frame_id with
        | some f =>
          { st with
            match_flag_in := Function.update st.match_flag_in in2
              ((st.match_flag_in in2) ||| (1 <<< f))
            match_flag_out := Function.update st.match_flag_out out
              ((st.match_flag_out out) ||| (1 <<< f))
            schedules := fun ts i =>
              if ts = f ∧ i = in2 then (out.val : Int) else st.schedules ts i }
        | none => st
      else st
    | none => st
  { st1 with
    match_flag_in := Function.update st1.match_flag_in top1
      ((st1.match_flag_in top1) ||| (1 <<< frame_id))
    match_flag_out := Function.update st1.match_flag_out out
      ((st1.match_flag_out out) ||| (1 <<< frame_id))
    schedules := fun ts i =>
      if ts = frame_id ∧ i = top1 then (out.val : Int) else st1.schedules ts i }

/-- A state in which input 1 and output 2 are both already matched at
frame slot 1 (bit 1 set) while slot 0 is free. -/
def stEx : SBHH 4 :=
  { sbhhConstruct 4 0 with
    match_flag_in := fun i => if i.val = 1 then 2 else 0 }

/-- The engine state after the constructor's PRNG has produced one value
(the first draw any scheduling step makes). -/
def sbhhDrawn : SBHH 4 :=
  { sbhhConstruct 4 12345 with eng := mtDraw (sbhhConstruct 4 12345).eng }

end Saber

namespace SWQPS

/-! ### Bitmap lemmas -/

theorem clearBit_testBit_self {bm s : Nat} (hs : s < T) :
    (clearBit bm s).testBit s = false := by
  simp [clearBit, Nat.one_shiftLeft, Nat.testBit_two_pow, hs]

theorem clearBit_testBit_of_ne {bm s b : Nat} (hb : b < T) (hne : b ≠ s) :
    (clearBit bm s).testBit b = bm.testBit b := by
  have hsb : ¬ s = b := fun h => hne h.symm
  simp [clearBit, Nat.one_shiftLeft, Nat.testBit_two_pow, hb, hsb]

theorem shiftWindow_testBit_of_lt {bm b : Nat} (hb : b + 1 < T) :
    ((bm >>> 1) ||| (1 <<< (T - 1))).testBit b = bm.testBit (b + 1) := by
  have hsb : ¬ T - 1 = b := by omega
  simp [Nat.one_shiftLeft, Nat.testBit_two_pow, hsb, Nat.add_comm 1 b]

theorem shiftWindow_testBit_last (bm : Nat) :
    ((bm >>> 1) ||| (1 <<< (T - 1))).testBit (T - 1) = true := by
  simp [Nat.one_shiftLeft, Nat.testBit_two_pow]

end SWQPS

namespace SWQPS

/-! ### C10 -/

/-- Claim C10: an accept whose `valid` flag is false or whose `time_slot`
is at least `T` leaves the input port's entire state unchanged. -/
theorem processAccept_invalid_noop (p : InputPort) (a : Accept)
    (h : a.valid = false ∨ T ≤ a.time_slot) :
    p.processAccept a = p := by
  have : ¬ (a.valid = true ∧ a.time_slot < T) := by
    rcases h with h | h
    · exact fun hc => by simp [h] at hc
    · exact fun hc => absurd hc.2 (by omega)
  simp [InputPort.processAccept, this]

/-- Witness for C10 at a concrete port and accept record. -/
theorem processAccept_invalid_noop_witness :
    (InputPort.initPort 0 1).processAccept
        { output_id := 3, input_id := 0, time_slot := 20, valid := true } =
      InputPort.initPort 0 1 :=
  processAccept_invalid_noop _ _ (Or.inr (by decide))

/-! ### C3 -/

/-- Claim C3: a delivered accept (valid, in-window slot, in-range output,
backlogged VOQ) clears bit `acc.slot` of the availability bitmap, records
`sched[acc.slot] = acc.output_id`, and decrements `len[output_id]` and
`sum` immediately (virtual departure), leaving the other VOQs untouched;
`graduateSlot` never mutates the VOQ lengths or the cached sum, so the
accepted packet is removed exactly once. -/
theorem processAccept_virtual_departure (p : InputPort) (a : Accept)
    (hv : a.valid = true) (ht : a.time_slot < T) (ho : a.output_id < N)
    (hl : 0 < p.voq_state.len a.output_id) :
    ((p.processAccept a).availability.testBit a.time_slot = false ∧
      (∀ b : Nat, b < T → b ≠ a.time_slot →
        (p.processAccept a).availability.testBit b =
          p.availability.testBit b) ∧
      (∀ t : Fin T, (p.processAccept a).schedule t =
        if t.val = a.time_slot then a.output_id else p.schedule t) ∧
      (p.processAccept a).voq_state.len a.output_id =
        p.voq_state.len a.output_id - 1 ∧
      (∀ j : Nat, j < N → j ≠ a.output_id →
        (p.processAccept a).voq_state.len j = p.voq_state.len j) ∧
      (p.processAccept a).voq_state.sum = p.voq_state.sum - 1) ∧
    (∀ (q : InputPort) (m : Bool) (op : Nat),
      (q.graduateSlot m op).voq_state.lengths = q.voq_state.lengths ∧
      (q.graduateSlot m op).voq_state.sum = q.voq_state.sum) := by
  constructor
  · have hcond : a.valid = true ∧ a.time_slot < T := ⟨hv, ht⟩
    have hl' : 0 < p.voq_state.lengths ⟨a.output_id, ho⟩ := by
      simpa [VOQState.len, ho] using hl
    have hvoq : a.output_id < N ∧ 0 < p.voq_state.len a.output_id := ⟨ho, hl⟩
    refine ⟨?_, ?_, ?_, ?_, ?_, ?_⟩
    · simp [InputPort.processAccept, hcond, clearBit_testBit_self ht]
    · intro b hb hne
      simp [InputPort.processAccept, hcond, clearBit_testBit_of_ne hb hne]
    · intro t
      simp [InputPort.processAccept, hcond]
    · simp [InputPort.processAccept, hcond, VOQState.len, ho, hl']
    · intro j hj hne
      simp [InputPort.processAccept, hcond, VOQState.len, hj, ho, hl',
        Function.update_noteq
          (by simp [Fin.ext_iff, hne] : (⟨j, hj⟩ : Fin N) ≠ ⟨a.output_id, ho⟩)]
    · simp [InputPort.processAccept, hcond, VOQState.len, ho, hl']
  · intro q m op
    exact ⟨rfl, rfl⟩

/-! ### C9 -/

/-- Counterexample for C9: an arrival to a saturated VOQ leaves the entire
engine state unchanged — in particular no drop counter is incremented
(the engine state carries no such counter and nothing in it changes). -/
theorem addPacket_saturated_counterexample :
    SWState.swAddPacket satState 0 5 = satState := by
  have hcond : (0:Nat) < N ∧ (5:Nat) < N := by decide
  have hlen : satPort.voq_state.len 5 = MAX_VOQ_LEN := rfl
  have hp2 : satPort.addPacket 5 = satPort := by
    rw [InputPort.addPacket, dif_neg]
    intro h
    rw [hlen] at h
    exact absurd h.2 (lt_irrefl _)
  have h0 : satState.input_ports ⟨0, hcond.1⟩ = satPort := by
    simp [satState, Function.update_same]
  rw [SWState.swAddPacket, dif_pos hcond, h0, hp2, ← h0,
    Function.update_eq_self]

/-- Claim C9 (amended): an arrival to a VOQ whose length has saturated
`MAX_VOQ_LEN` is dropped — the VOQ length, the cached sum and the whole
engine state are unchanged and the engine keeps operating — but no drop
counter is incremented (the engine maintains none). -/
theorem addPacket_saturated_noop (s : SWState) (i j : Nat)
    (hi : i < N) (hj : j < N)
    (hsat : ¬ (s.input_ports ⟨i, hi⟩).voq_state.len j < MAX_VOQ_LEN) :
    SWState.swAddPacket s i j = s := by
  have hij : i < N ∧ j < N := ⟨hi, hj⟩
  have hp : (s.input_ports ⟨i, hi⟩).addPacket j = s.input_ports ⟨i, hi⟩ := by
    rw [InputPort.addPacket, dif_neg]
    exact fun hc => hsat hc.2
  simp [SWState.swAddPacket, hij, hp, Function.update_eq_self]

/-- Witness for C9 at the saturated concrete state. -/
theorem addPacket_saturated_noop_witness :
    SWState.swAddPacket satState 0 5 = satState :=
  addPacket_saturated_noop satState 0 5 (by decide) (by decide) (by decide)

/-! ### C8 -/

theorem scanFrom_lt {len : Nat → Nat} {t : Nat} :
    ∀ (fuel cum i : Nat),
      scanFrom len t cum i fuel < i + fuel ∨ scanFrom len t cum i fuel = 0 := by
  intro fuel
  induction fuel with
  | zero => intro cum i; right; rfl
  | succ fuel ih =>
    intro cum i
    rw [scanFrom]
    split
    · left; omega
    · rcases ih (cum + len i) (i + 1) with h | h
      · left; omega
      · right; exact h

theorem sample_lt {v : VOQState} {r : Nat} (h : ¬ v.sum = 0) :
    sample v r < N := by
  rw [sample, if_neg h]
  rcases scanFrom_lt N 0 0 with hlt | h0
  · simpa using hlt
  · rw [h0]; decide

theorem genLoop_spec (fuel : Nat) :
    ∀ q : InputPort,
      ((q.genLoop fuel).1.valid = true →
        (q.genLoop fuel).1.input_id = q.port_id ∧
        (q.genLoop fuel).1.availability = q.availability ∧
        (q.genLoop fuel).1.output_id < N ∧
        q.isOutputMatched (q.genLoop fuel).1.output_id = false ∧
        (q.genLoop fuel).1.voq_len =
          q.voq_state.len (q.genLoop fuel).1.output_id ∧
        0 < (q.genLoop fuel).1.voq_len) ∧
      (q.voq_state.sum = 0 → (q.genLoop fuel).1.valid = false) ∧
      ((q.genLoop fuel).2.port_id = q.port_id ∧
        (q.genLoop fuel).2.voq_state = q.voq_state ∧
        (q.genLoop fuel).2.availability = q.availability ∧
        (q.genLoop fuel).2.schedule = q.schedule) := by
  induction fuel with
  | zero =>
    intro q
    refine ⟨?_, ?_, rfl, rfl, rfl, rfl⟩
    · intro h; cases h
    · intro _; rfl
  | succ fuel ih =>
    intro q
    simp only [InputPort.genLoop]
    split
    · rename_i hc
      refine ⟨fun _ => ?_, fun hz => ?_, rfl, rfl, rfl, rfl⟩
      · have hout : sample q.voq_state (lfsr_next q.lfsr_state) < N := by
          by_cases hz : q.voq_state.sum = 0
          · exact absurd (by simp [sample, hz]) hc.1
          · exact sample_lt hz
        exact ⟨rfl, rfl, hout, by simpa using hc.2.2, rfl, hc.2.1⟩
      · exact absurd
          (by simp [sample, hz] :
            sample q.voq_state (lfsr_next q.lfsr_state) = INVALID_PORT) hc.1
    · split
      · exact ⟨fun h => absurd h Bool.false_ne_true, fun _ => rfl, rfl, rfl, rfl, rfl⟩
      · exact ih { q with lfsr_state := lfsr_next q.lfsr_state }

/-- Claim C8: `generateProposal` returns an invalid proposal whenever the
VOQ sum is 0; every valid proposal it returns targets an in-range output
that is not bound in the window's `sched` array, and carries that output's
VOQ length (which is positive), the input's availability bitmap and the
input's id.  The attempt loop is bounded by `MAX_ATTEMPTS = N` by
construction (`generateProposal = genLoop · N`). -/
theorem generateProposal_contract (p : InputPort) :
    (p.voq_state.sum = 0 → p.generateProposal.1.valid = false) ∧
    (p.generateProposal.1.valid = true →
      p.generateProposal.1.output_id < N ∧
      p.isOutputMatched p.generateProposal.1.output_id = false ∧
      p.generateProposal.1.voq_len =
        p.voq_state.len p.generateProposal.1.output_id ∧
      0 < p.generateProposal.1.voq_len ∧
      p.generateProposal.1.availability = p.availability ∧
      p.generateProposal.1.input_id = p.port_id) := by
  have h := genLoop_spec N p
  refine ⟨h.2.1, fun hv => ?_⟩
  obtain ⟨h1, h2, h3, h4, h5, h6⟩ := h.1 hv
  exact ⟨h3, h4, h5, h6, h2, h1⟩

/-- Witness for C8: an empty port yields an invalid proposal. -/
theorem generateProposal_contract_witness :
    (InputPort.initPort 0 7).generateProposal.1.valid = false :=
  (generateProposal_contract _).1 rfl

/-! ### C2 -/

theorem sum_update (f : Fin N → Nat) (i : Fin N) (v : Nat) :
    (∑ j, Function.update f i v j) + f i = (∑ j, f j) + v := by
  rw [Finset.sum_update_of_mem (Finset.mem_univ i),
    Finset.sum_eq_sum_diff_singleton_add (Finset.mem_univ i) f]
  omega

theorem reachIP_sum (p : InputPort) (h : ReachIP p) :
    p.voq_state.sum = ∑ j, p.voq_state.lengths j := by
  induction h with
  | init id seed => simp [InputPort.initPort]
  | add j k hp ih =>
    rename_i q
    by_cases hc : j < N ∧ q.voq_state.len j < MAX_VOQ_LEN
    · have hs := sum_update q.voq_state.lengths ⟨j, hc.1⟩
        (q.voq_state.len j + k)
      have hlen : q.voq_state.len j = q.voq_state.lengths ⟨j, hc.1⟩ :=
        dif_pos hc.1
      rw [InputPort.addPacket, dif_pos hc]
      show q.voq_state.sum + k =
        ∑ x, Function.update q.voq_state.lengths ⟨j, hc.1⟩
          (q.voq_state.len j + k) x
      omega
    · rw [InputPort.addPacket, dif_neg hc]
      exact ih
  | remove j hp ih =>
    rename_i q
    by_cases hc : j < N ∧ 0 < q.voq_state.len j
    · have hs := sum_update q.voq_state.lengths ⟨j, hc.1⟩
        (q.voq_state.len j - 1)
      have hlen : q.voq_state.len j = q.voq_state.lengths ⟨j, hc.1⟩ :=
        dif_pos hc.1
      have hpos : 0 < q.voq_state.len j := hc.2
      rw [InputPort.removePacket, dif_pos hc]
      show q.voq_state.sum - 1 =
        ∑ x, Function.update q.voq_state.lengths ⟨j, hc.1⟩
          (q.voq_state.len j - 1) x
      omega
    · rw [InputPort.removePacket, dif_neg hc]
      exact ih
  | accept a hp ih =>
    rename_i q
    by_cases hcv : a.valid = true ∧ a.time_slot < T
    · by_cases hvoq : a.output_id < N ∧ 0 < q.voq_state.len a.output_id
      · have hs := sum_update q.voq_state.lengths ⟨a.output_id, hvoq.1⟩
          (q.voq_state.len a.output_id - 1)
        have hlen : q.voq_state.len a.output_id =
            q.voq_state.lengths ⟨a.output_id, hvoq.1⟩ := dif_pos hvoq.1
        have hpos : 0 < q.voq_state.len a.output_id := hvoq.2
        simp only [InputPort.processAccept]
        rw [if_pos hcv, dif_pos hvoq]
        show q.voq_state.sum - 1 =
          ∑ x, Function.update q.voq_state.lengths ⟨a.output_id, hvoq.1⟩
            (q.voq_state.len a.output_id - 1) x
        omega
      · simp only [InputPort.processAccept]
        rw [if_pos hcv, dif_neg hvoq]
        exact ih
    · simp only [InputPort.processAccept]
      rw [if_neg hcv]
      exact ih
  | graduate m o hp ih => exact ih
  | propose hp ih =>
    rename_i q
    have hvoq : q.generateProposal.2.voq_state = q.voq_state :=
      (genLoop_spec N q).2.2.2.1
    rw [hvoq]
    exact ih
  | load lens hp ih => simp [InputPort.loadTraffic]

theorem bstUpdate_high (d : Int) :
    ∀ (pos : Nat) (v : Nat → Int) (m : Nat), pos < m →
      Saber.bstUpdate v pos d m = v m := by
  intro pos
  induction pos using Nat.strong_induction_on with
  | _ pos ih =>
    intro v m hm
    rw [Saber.bstUpdate]
    split
    · rfl
    · rename_i h0
      rw [ih (pos / 2) (Nat.div_lt_self (Nat.pos_of_ne_zero h0) one_lt_two)
          _ _ (lt_of_le_of_lt (Nat.div_le_self pos 2) hm)]
      exact if_neg (by omega)

theorem bstUpdate_self (v : Nat → Int) (d : Int) (pos : Nat) (h : 0 < pos) :
    Saber.bstUpdate v pos d pos = v pos + d := by
  rw [Saber.bstUpdate, if_neg (by omega : ¬ pos = 0),
    bstUpdate_high d (pos / 2) _ pos (Nat.div_lt_self h one_lt_two)]
  exact if_pos rfl

theorem bstUpdate_other (v : Nat → Int) (d : Int) (pos m : Nat)
    (h1 : m ≠ pos) (h2 : pos / 2 < m) :
    Saber.bstUpdate v pos d m = v m := by
  by_cases h0 : pos = 0
  · subst h0
    rw [Saber.bstUpdate]
    simp
  · rw [Saber.bstUpdate, if_neg h0, bstUpdate_high d (pos / 2) _ m h2]
    exact if_neg h1

theorem reachVOQ_inv {n P : Nat} (hnP : n ≤ P) (st : Saber.VOQTrack n)
    (h : Saber.ReachVOQ n P st) :
    ∀ i j : Fin n,
      st.cf_packets_counter i j = st.bst i (j.val + P) ∧
      0 ≤ st.cf_packets_counter i j := by
  induction h with
  | init => exact fun i j => ⟨rfl, le_refl 0⟩
  | arrival i j hst ih =>
    intro a b
    have hP : 0 < P := lt_of_le_of_lt (Nat.zero_le _) (lt_of_lt_of_le j.isLt hnP)
    constructor
    · by_cases ha : a = i
      · subst ha
        by_cases hb : b = j
        · subst hb
          simp only [Saber.handleArrival, Function.update_same, and_self,
            if_pos]
          rw [bstUpdate_self _ _ _ (by omega)]
          have := (ih a b).1
          omega
        · have hbj : b.val ≠ j.val := fun hh => hb (Fin.ext hh)
          simp only [Saber.handleArrival, Function.update_same]
          rw [if_neg (by simp [hb]),
            bstUpdate_other _ _ _ _ (by omega)
              (by have := j.isLt; have := b.isLt; omega)]
          exact (ih a b).1
      · simp only [Saber.handleArrival, Function.update_noteq ha]
        rw [if_neg (by simp [ha])]
        exact (ih a b).1
    · by_cases hab : a = i ∧ b = j
      · obtain ⟨rfl, rfl⟩ := hab
        simp only [Saber.handleArrival]
        rw [if_pos (by exact ⟨trivial, trivial⟩)]
        have := (ih a b).2
        omega
      · simp only [Saber.handleArrival, if_neg hab]
        exact (ih a b).2
  | departure i j hpos hst ih =>
    intro a b
    have hP : 0 < P := lt_of_le_of_lt (Nat.zero_le _) (lt_of_lt_of_le j.isLt hnP)
    constructor
    · by_cases ha : a = i
      · subst ha
        by_cases hb : b = j
        · subst hb
          simp only [Saber.handleDeparture, Function.update_same, and_self,
            if_pos]
          rw [bstUpdate_self _ _ _ (by omega)]
          have := (ih a b).1
          omega
        · have hbj : b.val ≠ j.val := fun hh => hb (Fin.ext hh)
          simp only [Saber.handleDeparture, Function.update_same]
          rw [if_neg (by simp [hb]),
            bstUpdate_other _ _ _ _ (by omega)
              (by have := j.isLt; have := b.isLt; omega)]
          exact (ih a b).1
      · simp only [Saber.handleDeparture, Function.update_noteq ha]
        rw [if_neg (by simp [ha])]
        exact (ih a b).1
    · by_cases hab : a = i ∧ b = j
      · obtain ⟨rfl, rfl⟩ := hab
        simp only [Saber.handleDeparture]
        rw [if_pos (by exact ⟨trivial, trivial⟩)]
        have h0 := hpos
        have := (ih a b).2
        omega
      · simp only [Saber.handleDeparture, if_neg hab]
        exact (ih a b).2

/-- Claim C2: after every engine operation the VOQ accounting is
consistent: on the HLS side (reachable input-port states) the cached `sum`
equals the sum of the per-output VOQ lengths (which, as natural numbers,
are non-negative); on the saber side (reachable BST/counter states, where
departures run under the `assert(_cf_packets_counter[s][d] > 0)` guard)
`_cf_packets_counter[i][j]` equals the BST leaf value `_bst[i][j +
_left_start]` and is non-negative. -/
theorem voq_len_sum_bst_invariant :
    (∀ p : InputPort, ReachIP p →
      p.voq_state.sum = ∑ j, p.voq_state.lengths j) ∧
    (∀ (n P : Nat), n ≤ P → ∀ st : Saber.VOQTrack n,
      Saber.ReachVOQ n P st → ∀ i j : Fin n,
        st.cf_packets_counter i j = st.bst i (j.val + P) ∧
        0 ≤ st.cf_packets_counter i j) :=
  ⟨reachIP_sum, fun _ _ hnP _ h => reachVOQ_inv hnP _ h⟩

/-- Witness for C2 at a freshly initialised port and a one-arrival
tracking state. -/
theorem voq_len_sum_bst_invariant_witness :
    ((InputPort.initPort 3 4).voq_state.sum =
      ∑ j, (InputPort.initPort 3 4).voq_state.lengths j) ∧
    ((Saber.handleArrival 4 (Saber.zeroTrack 4) ⟨1, by decide⟩
        ⟨2, by decide⟩).cf_packets_counter ⟨1, by decide⟩ ⟨2, by decide⟩ =
      (Saber.handleArrival 4 (Saber.zeroTrack 4) ⟨1, by decide⟩
        ⟨2, by decide⟩).bst ⟨1, by decide⟩ 6) :=
  ⟨voq_len_sum_bst_invariant.1 _ (ReachIP.init 3 4),
    (voq_len_sum_bst_invariant.2 4 4 (le_refl 4) _
      (Saber.ReachVOQ.arrival _ _ Saber.ReachVOQ.init) ⟨1, by decide⟩
      ⟨2, by decide⟩).1⟩

/-! ### C6 -/

theorem prefSum_succ (len : Nat → Nat) (j : Nat) :
    prefSum len (j + 1) = prefSum len j + len j :=
  Finset.sum_range_succ len j

theorem prefSum_mono (len : Nat → Nat) {i j : Nat} (h : i ≤ j) :
    prefSum len i ≤ prefSum len j :=
  Finset.sum_le_sum_of_subset (Finset.range_subset.2 h)

theorem prefSum_unique {len : Nat → Nat} {r j j' : Nat}
    (h1 : prefSum len j ≤ r) (h2 : r < prefSum len (j + 1))
    (h1' : prefSum len j' ≤ r) (h2' : r < prefSum len (j' + 1)) : j = j' := by
  by_contra hne
  rcases Nat.lt_or_ge j j' with h | h
  · have := prefSum_mono len (by omega : j + 1 ≤ j')
    omega
  · have := prefSum_mono len (by omega : j' + 1 ≤ j)
    omega

theorem scanFrom_correct (len : Nat → Nat) (t : Nat) :
    ∀ (fuel i : Nat), prefSum len i ≤ t → t < prefSum len (i + fuel) →
      prefSum len (scanFrom len t (prefSum len i) i fuel) ≤ t ∧
      t < prefSum len (scanFrom len t (prefSum len i) i fuel + 1) ∧
      scanFrom len t (prefSum len i) i fuel < i + fuel := by
  intro fuel
  induction fuel with
  | zero =>
    intro i h1 h2
    rw [Nat.add_zero] at h2
    omega
  | succ fuel ih =>
    intro i h1 h2
    rw [scanFrom]
    split
    · rename_i hc
      refine ⟨h1, ?_, by omega⟩
      rw [prefSum_succ]
      omega
    · rename_i hc
      rw [← prefSum_succ]
      have h1' : prefSum len (i + 1) ≤ t := by
        rw [prefSum_succ]
        omega
      have h2' : t < prefSum len (i + 1 + fuel) := by
        have he : i + 1 + fuel = i + (fuel + 1) := by omega
        rw [he]
        exact h2
      have := ih (i + 1) h1' h2'
      exact ⟨this.1, this.2.1, by omega⟩

theorem sample_contract (v : VOQState) (rnd : Nat)
    (hsum : v.sum = ∑ j, v.lengths j) (hpos : 0 < v.sum) :
    sample v rnd < N ∧
    prefSum (fun k => v.len k) (sample v rnd) ≤ rnd % v.sum ∧
    rnd % v.sum < prefSum (fun k => v.len k) (sample v rnd + 1) := by
  have hne : ¬ v.sum = 0 := by omega
  have htot : (∑ j, v.lengths j) = prefSum (fun k => v.len k) N := by
    rw [prefSum, ← Fin.sum_univ_eq_sum_range (fun k => v.len k) N]
    refine Finset.sum_congr rfl fun i _ => ?_
    rw [VOQState.len, dif_pos i.isLt]
  have h1 : prefSum (fun k => v.len k) 0 ≤ rnd % v.sum := by
    simp [prefSum]
  have h2 : rnd % v.sum < prefSum (fun k => v.len k) (0 + N) := by
    rw [Nat.zero_add, ← htot, ← hsum]
    exact Nat.mod_lt _ hpos
  have hc := scanFrom_correct (fun k => v.len k) (rnd % v.sum) N 0 h1 h2
  have hz : prefSum (fun k => v.len k) 0 = 0 := by simp [prefSum]
  rw [hz] at hc
  rw [sample, if_neg hne]
  exact ⟨by have := hc.2.2; omega, hc.1, hc.2.1⟩

theorem leafSum_single (v : Nat → Nat) (a : Nat) :
    Saber.leafSum v a (a + 1) = v a := by
  rw [Saber.leafSum, Finset.sum_Ico_eq_sum_range]
  simp

theorem leafSum_split (v : Nat → Nat) {a b c : Nat} (h1 : a ≤ b) (h2 : b ≤ c) :
    Saber.leafSum v a b + Saber.leafSum v b c = Saber.leafSum v a c :=
  Finset.sum_Ico_consecutive _ h1 h2

theorem subtree_sum (v : Nat → Nat) (d : Nat)
    (Hc : ∀ k, k < 2 ^ d → 1 ≤ k → v k = v (2 * k) + v (2 * k + 1)) :
    ∀ (h k : Nat), 1 ≤ k → 2 ^ d ≤ k * 2 ^ h → (k + 1) * 2 ^ h ≤ 2 ^ (d + 1) →
      v k = Saber.leafSum v (k * 2 ^ h) ((k + 1) * 2 ^ h) := by
  intro h
  induction h with
  | zero =>
    intro k hk _ _
    simpa using (leafSum_single v k).symm
  | succ h ih =>
    intro k hk hlo hhi
    have h2p : (2:Nat) ≤ 2 ^ (h + 1) := by
      have := Nat.one_le_two_pow (n := h)
      rw [pow_succ]
      omega
    have hkd : k < 2 ^ d := by
      have hstep : (k + 1) * 2 ≤ (k + 1) * 2 ^ (h + 1) :=
        Nat.mul_le_mul_left _ h2p
      have : (k + 1) * 2 ≤ 2 ^ d * 2 := by
        rw [← pow_succ]
        omega
      have := Nat.le_of_mul_le_mul_right this (by omega)
      omega
    have e1 : 2 * k * 2 ^ h = k * 2 ^ (h + 1) := by ring
    have e2 : (2 * k + 2) * 2 ^ h = (k + 1) * 2 ^ (h + 1) := by ring
    have hl := ih (2 * k) (by omega)
      (by rw [e1]; exact hlo)
      (by
        have : (2 * k + 1) * 2 ^ h ≤ (2 * k + 2) * 2 ^ h :=
          Nat.mul_le_mul_right _ (by omega)
        rw [e2] at this
        omega)
    have hr := ih (2 * k + 1) (by omega)
      (by
        have : 2 * k * 2 ^ h ≤ (2 * k + 1) * 2 ^ h :=
          Nat.mul_le_mul_right _ (by omega)
        rw [e1] at this
        omega)
      (by rw [(by ring : (2 * k + 1 + 1) * 2 ^ h = (k + 1) * 2 ^ (h + 1))]
          exact hhi)
    have hsplit2 := leafSum_split v (a := 2 * k * 2 ^ h)
      (b := (2 * k + 1) * 2 ^ h) (c := (2 * k + 1 + 1) * 2 ^ h)
      (Nat.mul_le_mul_right (2 ^ h) (by omega : 2 * k ≤ 2 * k + 1))
      (Nat.mul_le_mul_right (2 ^ h) (by omega : 2 * k + 1 ≤ 2 * k + 1 + 1))
    rw [Hc k hkd hk, hl, hr, hsplit2, e1,
      (by ring : (2 * k + 1 + 1) * 2 ^ h = (k + 1) * 2 ^ (h + 1))]

theorem bstUB_rec (v : Nat → Nat) (d : Nat)
    (Hc : ∀ k, k < 2 ^ d → 1 ≤ k → v k = v (2 * k) + v (2 * k + 1)) :
    ∀ (h pos r : Nat), 1 ≤ pos → 2 ^ d ≤ pos * 2 ^ h →
      (pos + 1) * 2 ^ h ≤ 2 ^ (d + 1) → r < v pos →
      pos * 2 ^ h ≤ Saber.bstUpperBound v h pos r ∧
      Saber.bstUpperBound v h pos r < (pos + 1) * 2 ^ h ∧
      Saber.leafSum v (pos * 2 ^ h) (Saber.bstUpperBound v h pos r) ≤ r ∧
      r < Saber.leafSum v (pos * 2 ^ h) (Saber.bstUpperBound v h pos r + 1) := by
  intro h
  induction h with
  | zero =>
    intro pos r hpos hlo hhi hr
    simp only [Saber.bstUpperBound, pow_zero, Nat.mul_one]
    refine ⟨Nat.le_refl _, by omega, ?_, ?_⟩
    · simp [Saber.leafSum]
    · rw [leafSum_single]
      exact hr
  | succ h ih =>
    intro pos r hpos hlo hhi hr
    have h2p : (2:Nat) ≤ 2 ^ (h + 1) := by
      have := Nat.one_le_two_pow (n := h)
      rw [pow_succ]
      omega
    have hkd : pos < 2 ^ d := by
      have hstep : (pos + 1) * 2 ≤ (pos + 1) * 2 ^ (h + 1) :=
        Nat.mul_le_mul_left _ h2p
      have : (pos + 1) * 2 ≤ 2 ^ d * 2 := by
        rw [← pow_succ]
        omega
      have := Nat.le_of_mul_le_mul_right this (by omega)
      omega
    have hsplit := Hc pos hkd hpos
    have e1 : 2 * pos * 2 ^ h = pos * 2 ^ (h + 1) := by ring
    have e2 : (2 * pos + 2) * 2 ^ h = (pos + 1) * 2 ^ (h + 1) := by ring
    have emid_lo : pos * 2 ^ (h + 1) ≤ (2 * pos + 1) * 2 ^ h := by
      have : 2 * pos * 2 ^ h ≤ (2 * pos + 1) * 2 ^ h :=
        Nat.mul_le_mul_right _ (by omega)
      rw [e1] at this
      exact this
    have emid_hi : (2 * pos + 1) * 2 ^ h ≤ (pos + 1) * 2 ^ (h + 1) := by
      have : (2 * pos + 1) * 2 ^ h ≤ (2 * pos + 2) * 2 ^ h :=
        Nat.mul_le_mul_right _ (by omega)
      rw [e2] at this
      exact this
    rw [Saber.bstUpperBound]
    split
    · rename_i hleft
      have := ih (2 * pos) r (by omega) (by rw [e1]; exact hlo)
        (by
          have h3 : (2 * pos + 1) * 2 ^ h ≤ 2 ^ (d + 1) :=
            le_trans emid_hi hhi
          exact h3)
        hleft
      rw [e1] at this
      exact ⟨this.1, by have := this.2.1; omega, this.2.2.1, this.2.2.2⟩
    · rename_i hright
      have hr2 : r - v (2 * pos) < v (2 * pos + 1) := by omega
      have hrec := ih (2 * pos + 1) (r - v (2 * pos)) (by omega)
        (le_trans hlo emid_lo)
        (by rw [(by ring : (2 * pos + 1 + 1) * 2 ^ h = (pos + 1) * 2 ^ (h + 1))]
            exact hhi)
        hr2
      have hsub := subtree_sum v d Hc h (2 * pos) (by omega)
        (by rw [e1]; exact hlo)
        (by
          have h3 : (2 * pos + 1) * 2 ^ h ≤ 2 ^ (d + 1) :=
            le_trans emid_hi hhi
          exact h3)
      rw [e1] at hsub
      set res := Saber.bstUpperBound v h (2 * pos + 1) (r - v (2 * pos))
        with hres
      have hb1 : (2 * pos + 1) * 2 ^ h ≤ res := hrec.1
      have hb2 : res < (2 * pos + 1 + 1) * 2 ^ h := hrec.2.1
      have hbound : res < (pos + 1) * 2 ^ (h + 1) := by
        rw [(by ring : (2 * pos + 1 + 1) * 2 ^ h = (pos + 1) * 2 ^ (h + 1))]
          at hb2
        exact hb2
      have hs1 := leafSum_split v (a := pos * 2 ^ (h + 1))
        (b := (2 * pos + 1) * 2 ^ h) (c := res) emid_lo hb1
      have hs2 := leafSum_split v (a := pos * 2 ^ (h + 1))
        (b := (2 * pos + 1) * 2 ^ h) (c := res + 1) emid_lo (by omega)
      refine ⟨le_trans emid_lo hb1, hbound, ?_, ?_⟩
      · have := hrec.2.2.1
        omega
      · have := hrec.2.2.2
        omega

/-- Claim C6: given a consistent weight structure with positive total and
`r` below the total, both samplers return the unique index `j` whose
prefix-sum window contains `r`; an index with zero weight is never
returned.  The linear-scan sampler is `QPSSampler::sample` (with `r =
random_num % sum`); `BST::upper_bound` is modelled from the spec (its
implementation is not among the sources) as the root-to-leaf descent over
a consistent tree of depth `d` with the leaves at `[2^d, 2^(d+1))`. -/
theorem sampler_upper_bound_contract :
    (∀ (v : VOQState) (rnd : Nat),
      v.sum = ∑ j, v.lengths j → 0 < v.sum →
      sample v rnd < N ∧
      prefSum (fun k => v.len k) (sample v rnd) ≤ rnd % v.sum ∧
      rnd % v.sum < prefSum (fun k => v.len k) (sample v rnd + 1) ∧
      0 < v.len (sample v rnd) ∧
      (∀ j', prefSum (fun k => v.len k) j' ≤ rnd % v.sum →
        rnd % v.sum < prefSum (fun k => v.len k) (j' + 1) →
        j' = sample v rnd)) ∧
    (∀ (d : Nat) (v : Nat → Nat) (r : Nat),
      (∀ k, k < 2 ^ d → 1 ≤ k → v k = v (2 * k) + v (2 * k + 1)) →
      r < v 1 →
      Saber.bstUpperBound v d 1 r - 2 ^ d < 2 ^ d ∧
      prefSum (fun j => v (2 ^ d + j))
        (Saber.bstUpperBound v d 1 r - 2 ^ d) ≤ r ∧
      r < prefSum (fun j => v (2 ^ d + j))
        (Saber.bstUpperBound v d 1 r - 2 ^ d + 1) ∧
      0 < v (2 ^ d + (Saber.bstUpperBound v d 1 r - 2 ^ d)) ∧
      (∀ j', prefSum (fun j => v (2 ^ d + j)) j' ≤ r →
        r < prefSum (fun j => v (2 ^ d + j)) (j' + 1) →
        j' = Saber.bstUpperBound v d 1 r - 2 ^ d)) := by
  constructor
  · intro v rnd hsum hpos
    have hc := sample_contract v rnd hsum hpos
    have hlen : 0 < v.len (sample v rnd) := by
      have := prefSum_succ (fun k => v.len k) (sample v rnd)
      have h1 := hc.2.1
      have h2 := hc.2.2
      omega
    refine ⟨hc.1, hc.2.1, hc.2.2, hlen, fun j' h1' h2' => ?_⟩
    exact prefSum_unique h1' h2' hc.2.1 hc.2.2
  · intro d v r Hc hr
    have hrec := bstUB_rec v d Hc d 1 r (le_refl 1)
      (by omega) (by rw [(by ring : (1 + 1) * 2 ^ d = 2 ^ (d + 1))])
      hr
    rw [Nat.one_mul] at hrec
    set res := Saber.bstUpperBound v d 1 r with hres
    have htr : ∀ j, Saber.leafSum v (2 ^ d) (2 ^ d + j) =
        prefSum (fun k => v (2 ^ d + k)) j := by
      intro j
      rw [Saber.leafSum, prefSum, Finset.sum_Ico_eq_sum_range]
      simp
    have hre : res = 2 ^ d + (res - 2 ^ d) := by omega
    have hre1 : res + 1 = 2 ^ d + (res - 2 ^ d + 1) := by omega
    have hlow := hrec.2.2.1
    have hhigh := hrec.2.2.2
    rw [hre, htr] at hlow
    rw [hre1, htr] at hhigh
    have hzero : 0 < v (2 ^ d + (res - 2 ^ d)) := by
      have := prefSum_succ (fun k => v (2 ^ d + k)) (res - 2 ^ d)
      omega
    refine ⟨by omega, hlow, hhigh, hzero, fun j' h1' h2' => ?_⟩
    exact prefSum_unique h1' h2' hlow hhigh

/-- Witness for C6: the linear sampler on a backlog of two packets at
output 0 with `rnd = 1`, and `upper_bound` on the depth-1 tree with leaf
weights 1 and 2 at `r = 1`. -/
theorem sampler_upper_bound_contract_witness :
    (sample
        { lengths := fun i => if i.val = 0 then 2 else 0, sum := 2,
          availability := fullBitmap } 1 < N) ∧
    (1 < prefSum
      (fun j => (fun k => if k = 1 then 3 else if k = 2 then 1 else
        if k = 3 then 2 else 0) (2 ^ 1 + j))
      (Saber.bstUpperBound
        (fun k => if k = 1 then 3 else if k = 2 then 1 else
          if k = 3 then 2 else 0) 1 1 1 - 2 ^ 1 + 1)) :=
  ⟨(sampler_upper_bound_contract.1
      { lengths := fun i => if i.val = 0 then 2 else 0, sum := 2,
        availability := fullBitmap } 1 (by decide) (by decide)).1,
    (sampler_upper_bound_contract.2 1
      (fun k => if k = 1 then 3 else if k = 2 then 1 else
        if k = 3 then 2 else 0) 1 (by decide) (by decide)).2.2.1⟩

/-- Witness for C3: a concrete accept at a port holding one packet. -/
theorem processAccept_virtual_departure_witness :
    ((((InputPort.initPort 2 9).addPacket 5).processAccept
        { output_id := 5, input_id := 2, time_slot := 3, valid := true }
      ).voq_state.sum = 0) ∧
    (((InputPort.initPort 2 9).addPacket 5).processAccept
        { output_id := 5, input_id := 2, time_slot := 3, valid := true }
      ).availability.testBit 3 = false := by
  have h := processAccept_virtual_departure
    ((InputPort.initPort 2 9).addPacket 5)
    { output_id := 5, input_id := 2, time_slot := 3, valid := true }
    rfl (by decide) (by decide) (by decide)
  refine ⟨?_, h.1.1⟩
  have hs := h.1.2.2.2.2.2
  rw [hs]
  decide

end SWQPS

namespace Saber

/-! ### C4 -/

set_option maxRecDepth 100000 in
/-- Counterexample for C4: `reset()` does not re-seed `_eng`.  After the
engine has produced a single value, resetting leaves the PRNG in its
advanced state, which differs from the freshly constructed engine's state
and produces a different next value — so the post-reset sequence is not
bit-for-bit that of a fresh engine with the same seed. -/
theorem reset_no_reseed_counterexample :
    (sbhhReset sbhhDrawn).eng ≠ (sbhhConstruct 4 12345).eng ∧
    mtOutput (sbhhReset sbhhDrawn).eng ≠
      mtOutput (sbhhConstruct 4 12345).eng :=
  ⟨by decide, by decide⟩

/-- Claim C4 (amended): `reset()` zeroes the matching state, the match
bitmaps, the BSTs, the packet counters and the frame clock — i.e. it
produces exactly the state of a freshly constructed engine — except that
the PRNG `_eng` keeps its current state instead of being re-seeded with
the construction seed.  The post-reset engine therefore behaves like a
fresh engine only when the PRNG state happens to be untouched. -/
theorem reset_zeroes_but_keeps_eng {n : Nat} (st : SBHH n) :
    sbhhReset st = { sbhhConstruct n st.seed with eng := st.eng } := rfl

/-! ### C7 -/

theorem scanBack_some {mf : Nat} :
    ∀ {f₀ f : Nat}, scanBack mf f₀ = some f →
      mf.testBit f = false ∧ f < f₀ ∧
      ∀ g, f < g → g < f₀ → mf.testBit g = true := by
  intro f₀
  induction f₀ with
  | zero => intro f h; cases h
  | succ f₀ ih =>
    intro f h
    rw [scanBack] at h
    split at h
    · rename_i hbit
      cases h
      exact ⟨hbit, Nat.lt_succ_self _, fun g hg hg' => by omega⟩
    · rename_i hbit
      have := ih h
      refine ⟨this.1, by omega, fun g hg hg' => ?_⟩
      rcases Nat.lt_or_ge g f₀ with hlt | hge
      · exact this.2.2 g hg hlt
      · have : g = f₀ := by omega
        subst this
        simpa using hbit

theorem scanBack_none {mf : Nat} :
    ∀ {f₀ : Nat}, scanBack mf f₀ = none →
      ∀ g, g < f₀ → mf.testBit g = true := by
  intro f₀
  induction f₀ with
  | zero => intro _ g hg; omega
  | succ f₀ ih =>
    intro h g hg
    rw [scanBack] at h
    split at h
    · cases h
    · rename_i hbit
      rcases Nat.lt_or_ge g f₀ with hlt | hge
      · exact ih h g hlt
      · have : g = f₀ := by omega
        subst this
        simpa using hbit

/-- Claim C7 (amended): in the Half-Half Oblivious accept phase the top-2
proposal is back-filled by scanning the earlier slots `t-1, t-2, ..., 0`
and binding at the largest slot `f` where both the input's and the
output's match bitmaps are clear, binding at most once (the loop breaks at
the first fit); when no earlier slot has both bits clear, no back-fill
happens.  The back-fill is not restricted to the single slot `t-1`. -/
theorem hh_backfill_first_fit {n : Nat} (st : SBHH n)
    (frame_id max_accepts : Nat) (top1 in2 out : Fin n)
    (hmax : 1 < max_accepts) :
    (∀ f, scanBack (st.match_flag_in in2 ||| st.match_flag_out out)
        frame_id = some f →
      (st.match_flag_in in2 ||| st.match_flag_out out).testBit f = false ∧
      f < frame_id ∧
      (∀ g, f < g → g < frame_id →
        (st.match_flag_in in2 ||| st.match_flag_out out).testBit g = true) ∧
      (hhAcceptOut st frame_id max_accepts top1 (some in2) out).schedules
        f in2 = (out.val : Int) ∧
      (∀ ts i, ts ≠ f → ts ≠ frame_id →
        (hhAcceptOut st frame_id max_accepts top1 (some in2) out).schedules
          ts i = st.schedules ts i)) ∧
    (scanBack (st.match_flag_in in2 ||| st.match_flag_out out)
        frame_id = none →
      (∀ g, g < frame_id →
        (st.match_flag_in in2 ||| st.match_flag_out out).testBit g = true) ∧
      (∀ ts i, ts ≠ frame_id →
        (hhAcceptOut st frame_id max_accepts top1 (some in2) out).schedules
          ts i = st.schedules ts i)) := by
  constructor
  · intro f hscan
    have hspec := scanBack_some hscan
    refine ⟨hspec.1, hspec.2.1, hspec.2.2, ?_, ?_⟩
    · simp only [hhAcceptOut, if_pos hmax]
      rw [hscan]
      have hne : ¬ (f = frame_id ∧ in2 = top1) :=
        fun hc => absurd hc.1 (by omega)
      simp only [if_neg hne]
      simp
    · intro ts i hts1 hts2
      simp only [hhAcceptOut, if_pos hmax]
      rw [hscan]
      have hne1 : ¬ (ts = frame_id ∧ i = top1) := fun hc => hts2 hc.1
      have hne2 : ¬ (ts = f ∧ i = in2) := fun hc => hts1 hc.1
      simp only [if_neg hne1, if_neg hne2]
  · intro hscan
    refine ⟨scanBack_none hscan, ?_⟩
    intro ts i hts
    simp only [hhAcceptOut, if_pos hmax]
    rw [hscan]
    have hne : ¬ (ts = frame_id ∧ i = top1) := fun hc => hts hc.1
    simp only [if_neg hne]

/-- Witness for C7 at a concrete state: both masks clear only at slot 0 of
frame slots 0 and 1; the back-fill binds at slot 0. -/
theorem hh_backfill_first_fit_witness :
    (hhAcceptOut stEx 2 2 ⟨0, by decide⟩ (some ⟨1, by decide⟩)
      ⟨2, by decide⟩).schedules 0 ⟨1, by decide⟩ = (2 : Int) :=
  ((hh_backfill_first_fit stEx 2 2 ⟨0, by decide⟩ ⟨1, by decide⟩
      ⟨2, by decide⟩ (by decide)).1 0 (by decide)).2.2.2.1

/-- Counterexample for C7: the code back-fills at slot 0 although the
single target slot `t-1 = 1` has both masks set — the Oblivious variant
does scan over the other earlier slots of the frame. -/
theorem hh_backfill_counterexample :
    (hhAcceptOut stEx 2 2 ⟨0, by decide⟩ (some ⟨1, by decide⟩)
      ⟨2, by decide⟩).schedules 0 ⟨1, by decide⟩ = (2 : Int) ∧
    (stEx.match_flag_in ⟨1, by decide⟩ |||
      stEx.match_flag_out ⟨2, by decide⟩).testBit 1 = true := by
  constructor
  · simp only [hhAcceptOut, if_pos (by decide : (1:Nat) < 2)]
    rw [show scanBack (stEx.match_flag_in ⟨1, by decide⟩ |||
        stEx.match_flag_out ⟨2, by decide⟩) 2 = some 0 from by decide]
    decide
  · decide

end Saber

namespace SWQPS

/-! ### C5 -/

theorem maxIdxAux_spec :
    ∀ (l : List Proposal) (cur best bl : Nat),
      (OutputPort.maxIdxAux l cur best bl = best ∧ ∀ q ∈ l, q.voq_len ≤ bl) ∨
      (∃ i, ∃ hi : i < l.length,
        OutputPort.maxIdxAux l cur best bl = cur + i ∧
        bl < (l.get ⟨i, hi⟩).voq_len ∧
        (∀ j (hj : j < l.length), j < i →
          (l.get ⟨j, hj⟩).voq_len < (l.get ⟨i, hi⟩).voq_len) ∧
        (∀ q ∈ l, q.voq_len ≤ (l.get ⟨i, hi⟩).voq_len)) := by
  intro l
  induction l with
  | nil =>
    intro cur best bl
    left
    exact ⟨rfl, fun q hq => absurd hq (List.not_mem_nil q)⟩
  | cons q rest ih =>
    intro cur best bl
    rw [OutputPort.maxIdxAux]
    split
    · rename_i hlt
      rcases ih (cur + 1) cur q.voq_len with ⟨heq, hall⟩ | ⟨i, hi, heq, hgt, hleft, hall⟩
      · right
        refine ⟨0, by simp, by rw [heq]; omega, hlt, ?_, ?_⟩
        · intro j hj hji
          omega
        · intro p hp
          rcases List.mem_cons.1 hp with rfl | hp
          · exact le_refl _
          · exact hall p hp
      · right
        refine ⟨i + 1, by simpa using hi, by rw [heq]; omega, ?_, ?_, ?_⟩
        · rw [List.get_cons_succ]
          omega
        · intro j hj hji
          match j with
          | 0 =>
            rw [List.get_cons_succ]
            show q.voq_len < (rest.get ⟨i, hi⟩).voq_len
            omega
          | j' + 1 =>
            rw [List.get_cons_succ, List.get_cons_succ]
            exact hleft j' (by simpa using hj) (by omega)
        · intro p hp
          rcases List.mem_cons.1 hp with rfl | hp
          · rw [List.get_cons_succ]
            omega
          · rw [List.get_cons_succ]
            exact hall p hp
    · rename_i hge
      rcases ih (cur + 1) best bl with ⟨heq, hall⟩ | ⟨i, hi, heq, hgt, hleft, hall⟩
      · left
        refine ⟨heq, fun p hp => ?_⟩
        rcases List.mem_cons.1 hp with rfl | hp
        · omega
        · exact hall p hp
      · right
        refine ⟨i + 1, by simpa using hi, by rw [heq]; omega, hgt, ?_, ?_⟩
        · intro j hj hji
          match j with
          | 0 =>
            rw [List.get_cons_succ]
            show q.voq_len < (rest.get ⟨i, hi⟩).voq_len
            omega
          | j' + 1 =>
            rw [List.get_cons_succ, List.get_cons_succ]
            exact hleft j' (by simpa using hj) (by omega)
        · intro p hp
          rcases List.mem_cons.1 hp with rfl | hp
          · rw [List.get_cons_succ]
            omega
          · rw [List.get_cons_succ]
            exact hall p hp

theorem maxIdx_lt (x : Proposal) (xs : List Proposal) :
    OutputPort.maxIdx x xs < (x :: xs).length := by
  rcases maxIdxAux_spec xs 1 0 x.voq_len with ⟨heq, _⟩ | ⟨i, hi, heq, _⟩
  · rw [OutputPort.maxIdx, heq]
    simp
  · rw [OutputPort.maxIdx, heq]
    simp only [List.length_cons]
    omega

theorem getD_eq_get {l : List Proposal} {k : Nat} (h : k < l.length)
    (d : Proposal) : l.getD k d = l.get ⟨k, h⟩ := by
  simp [List.getD_eq_getElem?_getD, List.getElem?_eq_getElem h]

theorem selSwap_fst_max (x : Proposal) (xs : List Proposal) :
    ∀ q ∈ x :: xs, q.voq_len ≤ (OutputPort.selSwap x xs).1.voq_len := by
  intro p hp
  rcases maxIdxAux_spec xs 1 0 x.voq_len with ⟨heq, hall⟩ |
    ⟨i, hi, heq, hgt, _, hall⟩
  · have hk : OutputPort.maxIdx x xs = 0 := by rw [OutputPort.maxIdx, heq]
    have : (OutputPort.selSwap x xs).1 = x := by
      simp [OutputPort.selSwap, hk]
    rw [this]
    rcases List.mem_cons.1 hp with rfl | hp
    · exact le_refl _
    · exact hall p hp
  · have hk : OutputPort.maxIdx x xs = 1 + i := by rw [OutputPort.maxIdx, heq]
    have hklt : 1 + i < (x :: xs).length := by
      simp only [List.length_cons]
      omega
    have hsel : (OutputPort.selSwap x xs).1 = (x :: xs).get ⟨1 + i, hklt⟩ := by
      simp only [OutputPort.selSwap, hk]
      exact getD_eq_get hklt x
    have hget : (x :: xs).get ⟨1 + i, hklt⟩ = xs.get ⟨i, hi⟩ := by
      have : 1 + i = i + 1 := by omega
      simp [this, List.get]
    rw [hsel, hget]
    rcases List.mem_cons.1 hp with rfl | hp
    · exact le_of_lt hgt
    · exact hall p hp

theorem selSwap_perm (x : Proposal) (xs : List Proposal) :
    ((OutputPort.selSwap x xs).1 :: (OutputPort.selSwap x xs).2).Perm
      (x :: xs) := by
  rcases maxIdxAux_spec xs 1 0 x.voq_len with ⟨heq, _⟩ | ⟨i, hi, heq, _⟩
  · have hk : OutputPort.maxIdx x xs = 0 := by rw [OutputPort.maxIdx, heq]
    simp [OutputPort.selSwap, hk]
  · have hk : OutputPort.maxIdx x xs = i + 1 := by
      rw [OutputPort.maxIdx, heq]; omega
    have hklt : i + 1 < (x :: xs).length := by simpa using hi
    have hsel : (OutputPort.selSwap x xs).1 = xs.get ⟨i, hi⟩ := by
      simp only [OutputPort.selSwap, hk]
      rw [getD_eq_get hklt x]
      simp [List.get]
    have hset : (x :: xs).set (i + 1) x = x :: xs.set i x := rfl
    have hrest : (OutputPort.selSwap x xs).2 = xs.set i x := by
      simp only [OutputPort.selSwap, hk, hset]
      rfl
    rw [hsel, hrest]
    have hxs : xs.take i ++ xs.get ⟨i, hi⟩ :: xs.drop (i + 1) = xs := by
      rw [List.get_eq_getElem, List.getElem_cons_drop, List.take_append_drop]
    have hsetd : xs.set i x = xs.take i ++ x :: xs.drop (i + 1) := by
      rw [List.set_eq_take_append_cons_drop, if_pos hi]
    rw [hsetd]
    refine (List.Perm.cons _ List.perm_middle).trans ?_
    refine (List.Perm.swap _ _ _).trans ?_
    refine (List.Perm.cons _ List.perm_middle.symm).trans ?_
    rw [hxs]

theorem selSwap_length (x : Proposal) (xs : List Proposal) :
    (OutputPort.selSwap x xs).2.length = xs.length := by
  simp [OutputPort.selSwap]

theorem sortTopK_length :
    ∀ (k : Nat) (l : List Proposal),
      (OutputPort.sortTopK k l).length = min k l.length := by
  intro k
  induction k with
  | zero => intro l; simp [OutputPort.sortTopK]
  | succ k ih =>
    intro l
    match l with
    | [] => simp [OutputPort.sortTopK]
    | x :: xs =>
      rw [OutputPort.sortTopK]
      have := ih (OutputPort.selSwap x xs).2
      have hlen := selSwap_length x xs
      simp only [List.length_cons, this, hlen]
      omega

theorem sortTopK_subset :
    ∀ (k : Nat) (l : List Proposal), ∀ p ∈ OutputPort.sortTopK k l, p ∈ l := by
  intro k
  induction k with
  | zero => intro l p hp; simp [OutputPort.sortTopK] at hp
  | succ k ih =>
    intro l p hp
    match l with
    | [] => simp [OutputPort.sortTopK] at hp
    | x :: xs =>
      rw [OutputPort.sortTopK] at hp
      rcases List.mem_cons.1 hp with rfl | hp
      · exact (selSwap_perm x xs).mem_iff.1 (List.mem_cons_self _ _)
      · exact (selSwap_perm x xs).mem_iff.1
          (List.mem_cons_of_mem _ (ih _ p hp))

theorem sortTopK_take :
    ∀ (k k' : Nat) (l : List Proposal), k ≤ k' →
      OutputPort.sortTopK k l = (OutputPort.sortTopK k' l).take k := by
  intro k
  induction k with
  | zero => intro k' l _; simp [OutputPort.sortTopK]
  | succ k ih =>
    intro k' l hkk
    match k', l with
    | k'' + 1, [] => simp [OutputPort.sortTopK]
    | k'' + 1, x :: xs =>
      rw [OutputPort.sortTopK, OutputPort.sortTopK, List.take_succ_cons]
      exact congrArg _ (ih k'' _ (by omega))

theorem sortTopK_pairwise :
    ∀ (k : Nat) (l : List Proposal),
      (OutputPort.sortTopK k l).Pairwise
        (fun p q => q.voq_len ≤ p.voq_len) := by
  intro k
  induction k with
  | zero => intro l; simp [OutputPort.sortTopK]
  | succ k ih =>
    intro l
    match l with
    | [] => simp [OutputPort.sortTopK]
    | x :: xs =>
      rw [OutputPort.sortTopK]
      refine List.Pairwise.cons ?_ (ih _)
      intro q hq
      exact selSwap_fst_max x xs q
        ((selSwap_perm x xs).mem_iff.1
          (List.mem_cons_of_mem _ (sortTopK_subset k _ q hq)))

theorem fullSort_perm :
    ∀ (n : Nat) (l : List Proposal), l.length = n →
      (OutputPort.sortTopK n l).Perm l := by
  intro n
  induction n with
  | zero =>
    intro l hl
    rw [List.length_eq_zero] at hl
    subst hl
    exact List.Perm.refl _
  | succ n ih =>
    intro l hl
    match l with
    | x :: xs =>
      rw [OutputPort.sortTopK]
      have hrest : (OutputPort.selSwap x xs).2.length = n := by
        rw [selSwap_length]
        simpa using hl
      exact ((ih _ hrest).cons _).trans (selSwap_perm x xs)

theorem ffaScan_some {avail : Nat} :
    ∀ {l : List Proposal} {p : Proposal} {s : Nat},
      OutputPort.ffaScan avail l = some (p, s) →
      ∃ l1 l2, l = l1 ++ p :: l2 ∧
        (∀ q ∈ l1, q.valid = true →
          first_fit_accept q.availability avail = INVALID_PORT) ∧
        p.valid = true ∧
        s = first_fit_accept p.availability avail ∧
        s ≠ INVALID_PORT := by
  intro l
  induction l with
  | nil => intro p s h; cases h
  | cons q rest ih =>
    intro p s h
    rw [OutputPort.ffaScan] at h
    split at h
    · rename_i hv
      split at h
      · rename_i hslot
        cases h
        exact ⟨[], rest, rfl, fun q hq => absurd hq (List.not_mem_nil q),
          hv, rfl, hslot⟩
      · rename_i hslot
        obtain ⟨l1, l2, hl, hfront, hrest⟩ := ih h
        refine ⟨q :: l1, l2, by simp [hl], ?_, hrest⟩
        intro q' hq' hval
        rcases List.mem_cons.1 hq' with rfl | hq'
        · simpa using hslot
        · exact hfront q' hq' hval
    · rename_i hv
      obtain ⟨l1, l2, hl, hfront, hrest⟩ := ih h
      refine ⟨q :: l1, l2, by simp [hl], ?_, hrest⟩
      intro q' hq' hval
      rcases List.mem_cons.1 hq' with rfl | hq'
      · exact absurd hval hv
      · exact hfront q' hq' hval

theorem ffaScan_none {avail : Nat} :
    ∀ {l : List Proposal}, OutputPort.ffaScan avail l = none →
      ∀ q ∈ l, q.valid = true →
        first_fit_accept q.availability avail = INVALID_PORT := by
  intro l
  induction l with
  | nil => intro _ q hq; exact absurd hq (List.not_mem_nil q)
  | cons q rest ih =>
    intro h q' hq' hval
    rw [OutputPort.ffaScan] at h
    split at h
    · rename_i hv
      split at h
      · cases h
      · rename_i hslot
        rcases List.mem_cons.1 hq' with rfl | hq'
        · simpa using hslot
        · exact ih h q' hq' hval
    · rename_i hv
      rcases List.mem_cons.1 hq' with rfl | hq'
      · exact absurd hval hv
      · exact ih h q' hq' hval

theorem ffsFrom_spec (bm : Nat) :
    ∀ (fuel i : Nat), i + fuel ≤ INVALID_PORT →
      (findFirstSetFrom bm i fuel = INVALID_PORT ∧
        ∀ b, i ≤ b → b < i + fuel → bm.testBit b = false) ∨
      (i ≤ findFirstSetFrom bm i fuel ∧
        findFirstSetFrom bm i fuel < i + fuel ∧
        bm.testBit (findFirstSetFrom bm i fuel) = true ∧
        ∀ b, i ≤ b → b < findFirstSetFrom bm i fuel →
          bm.testBit b = false) := by
  intro fuel
  induction fuel with
  | zero =>
    intro i _
    left
    exact ⟨rfl, fun b h1 h2 => by omega⟩
  | succ fuel ih =>
    intro i hbound
    rw [findFirstSetFrom]
    split
    · rename_i hbit
      right
      exact ⟨le_refl i, by omega, hbit, fun b h1 h2 => by omega⟩
    · rename_i hbit
      rcases ih (i + 1) (by omega) with ⟨heq, hnone⟩ | ⟨h1, h2, h3, h4⟩
      · left
        refine ⟨heq, fun b hb1 hb2 => ?_⟩
        rcases Nat.eq_or_lt_of_le hb1 with rfl | hlt
        · simpa using hbit
        · exact hnone b (by omega) (by omega)
      · right
        refine ⟨by omega, by omega, h3, fun b hb1 hb2 => ?_⟩
        rcases Nat.eq_or_lt_of_le hb1 with rfl | hlt
        · simpa using hbit
        · exact h4 b (by omega) hb2

theorem find_first_set_spec (bm : Nat) :
    (find_first_set bm = INVALID_PORT ∧
      ∀ b, b < T → bm.testBit b = false) ∨
    (find_first_set bm < T ∧ bm.testBit (find_first_set bm) = true ∧
      ∀ b, b < find_first_set bm → bm.testBit b = false) := by
  rcases ffsFrom_spec bm T 0 (by decide) with ⟨heq, hnone⟩ | ⟨h1, h2, h3, h4⟩
  · left
    exact ⟨heq, fun b hb => hnone b (Nat.zero_le b) (by omega)⟩
  · right
    exact ⟨by simpa using h2, h3, fun b hb => h4 b (Nat.zero_le b) hb⟩

/-- Claim C5 (amended): `processProposals` considers only proposals of the
delivered list — the first `min(k, KNOCKOUT)` entries of the selection
sort's reordering of the list, which is a permutation of it in
non-increasing `voq_len` order (ties resolved by the in-place selection
sort's swap order, not necessarily by smaller `input_id`) — binds the
first considered proposal that has a mutually available slot at the
earliest such slot (`first_fit_accept` = first set bit of the AND of the
two bitmaps), and emits at most one accept per call. -/
theorem processProposals_knockout_ffa (o : OutputPort) (props : List Proposal)
    (hvalid : ∀ p ∈ props, p.valid = true) :
    ((o.processProposals props).1.length ≤ 1) ∧
    ((OutputPort.sortTopK (min props.length KNOCKOUT_THRESH) props).length =
      min props.length KNOCKOUT_THRESH) ∧
    (OutputPort.sortTopK (min props.length KNOCKOUT_THRESH) props =
      (OutputPort.sortTopK props.length props).take
        (min props.length KNOCKOUT_THRESH)) ∧
    ((OutputPort.sortTopK props.length props).Perm props) ∧
    ((OutputPort.sortTopK (min props.length KNOCKOUT_THRESH) props).Pairwise
      (fun p q => q.voq_len ≤ p.voq_len)) ∧
    (∀ a ∈ (o.processProposals props).1, ∃ p l1 l2,
      OutputPort.sortTopK (min props.length KNOCKOUT_THRESH) props =
        l1 ++ p :: l2 ∧
      (∀ q ∈ l1,
        first_fit_accept q.availability o.calendar.availability =
          INVALID_PORT) ∧
      a.output_id = o.port_id ∧ a.input_id = p.input_id ∧ a.valid = true ∧
      a.time_slot =
        first_fit_accept p.availability o.calendar.availability ∧
      a.time_slot < T ∧
      p.availability.testBit a.time_slot = true ∧
      o.calendar.availability.testBit a.time_slot = true ∧
      (∀ b, b < a.time_slot → p.availability.testBit b = true →
        o.calendar.availability.testBit b = false)) ∧
    ((o.processProposals props).1 = [] → (o.processProposals props).2 = o) := by
  have hmin : min (min props.length KNOCKOUT_THRESH) props.length =
      min props.length KNOCKOUT_THRESH :=
    Nat.min_eq_left (Nat.min_le_left _ _)
  have hlen := sortTopK_length (min props.length KNOCKOUT_THRESH) props
  rw [hmin] at hlen
  have htake := sortTopK_take (min props.length KNOCKOUT_THRESH)
    props.length props (Nat.min_le_left _ _)
  have hperm := fullSort_perm props.length props rfl
  have hpair := sortTopK_pairwise (min props.length KNOCKOUT_THRESH) props
  cases hscan : OutputPort.ffaScan o.calendar.availability
      (OutputPort.sortTopK (min props.length KNOCKOUT_THRESH) props) with
  | none =>
    have hpp : o.processProposals props = ([], o) := by
      simp only [OutputPort.processProposals, hscan]
    refine ⟨by rw [hpp]; exact Nat.zero_le 1, hlen, htake, hperm, hpair,
      ?_, fun _ => by rw [hpp]⟩
    intro a ha
    rw [hpp] at ha
    exact absurd ha (List.not_mem_nil a)
  | some val =>
    obtain ⟨q, slot⟩ := val
    have hpp1 : (o.processProposals props).1 = [{ output_id := o.port_id, input_id := q.input_id, time_slot := slot, valid := true }] := by
      simp only [OutputPort.processProposals, hscan]
    obtain ⟨l1, l2, hsplit, hfront, hqval, hsloteq, hslotne⟩ :=
      ffaScan_some hscan
    have hffs := find_first_set_spec
      (q.availability &&& o.calendar.availability)
    rcases hffs with ⟨heq, _⟩ | ⟨hlt, hbit, hminb⟩
    · rw [first_fit_accept] at hsloteq
      rw [heq] at hsloteq
      exact absurd hsloteq hslotne
    · refine ⟨by rw [hpp1]; exact le_refl 1, hlen, htake, hperm, hpair,
        ?_, fun hc => by rw [hpp1] at hc; cases hc⟩
      intro a ha
      rw [hpp1] at ha
      have ha' : a = { output_id := o.port_id, input_id := q.input_id, time_slot := slot, valid := true } := by
        rcases List.mem_cons.1 ha with h | h
        · exact h
        · exact absurd h (List.not_mem_nil a)
      subst ha'
      refine ⟨q, l1, l2, hsplit, ?_, rfl, rfl, rfl, hsloteq, ?_, ?_, ?_, ?_⟩
      · intro q' hq'
        have hq'mem : q' ∈ OutputPort.sortTopK
            (min props.length KNOCKOUT_THRESH) props := by
          rw [hsplit]
          exact List.mem_append_left _ hq'
        exact hfront q' hq'
          (hvalid q' (sortTopK_subset _ _ q' hq'mem))
      · show slot < T
        rw [hsloteq, first_fit_accept]
        exact hlt
      · show q.availability.testBit slot = true
        rw [hsloteq, first_fit_accept]
        have hb := hbit
        rw [Nat.testBit_and, Bool.and_eq_true] at hb
        exact hb.1
      · show o.calendar.availability.testBit slot = true
        rw [hsloteq, first_fit_accept]
        have hb := hbit
        rw [Nat.testBit_and, Bool.and_eq_true] at hb
        exact hb.2
      · intro b hb hpb
        have hb' : b < find_first_set
            (q.availability &&& o.calendar.availability) := by
          rw [hsloteq, first_fit_accept] at hb
          exact hb
        have hfalse := hminb b hb'
        rw [Nat.testBit_and] at hfalse
        rcases Bool.and_eq_false_iff.1 hfalse with h | h
        · rw [hpb] at h
          cases h
        · exact h

/-- Witness for C5 (amended) at the three concrete proposals. -/
theorem processProposals_knockout_ffa_witness :
    ((OutputPort.initPort 3).processProposals
      [propA, propB, propC]).1.length ≤ 1 :=
  (processProposals_knockout_ffa (OutputPort.initPort 3)
    [propA, propB, propC] (by decide)).1

/-- Counterexample for C5: for the three valid proposals
`[propA (len 1), propB (len 1), propC (len 5, no free slot)]` the code
accepts input 1 whereas the spec's order (decreasing `voq_len`, ties by
smaller `input_id`) prescribes accepting input 0: the in-place selection
sort breaks the tie between inputs 0 and 1 the other way after the swap
moved input 0 behind input 1. -/
theorem processProposals_tiebreak_counterexample :
    (((OutputPort.initPort 3).processProposals
        [propA, propB, propC]).1.map (fun a => a.input_id) = [1]) ∧
    ((OutputPort.claimAccept (OutputPort.initPort 3).calendar.availability
        [propA, propB, propC]).map (fun x => x.1.input_id) = some 0) := by
  constructor
  · decide
  · decide

end SWQPS

namespace SWQPS

/-! ### C1 -/

theorem processAccept_pid (p : InputPort) (a : Accept) :
    (p.processAccept a).port_id = p.port_id := by
  rw [InputPort.processAccept]
  split <;> rfl

theorem processAccept_avail (p : InputPort) (a : Accept)
    (hv : a.valid = true) (ht : a.time_slot < T) :
    (p.processAccept a).availability = clearBit p.availability a.time_slot := by
  rw [InputPort.processAccept, if_pos ⟨hv, ht⟩]

theorem addPacket_pid_avail (p : InputPort) (j k : Nat) :
    (p.addPacket j k).port_id = p.port_id ∧
      (p.addPacket j k).availability = p.availability := by
  rw [InputPort.addPacket]
  split <;> exact ⟨rfl, rfl⟩

theorem inv_swInit (seed : Nat) : SWState.Inv (SWState.swInit seed) := by
  refine ⟨fun i => rfl, ?_, ?_, fun o t => Or.inr rfl⟩
  · intro o o' t hlt heq
    have hc : (127 : Nat) < 64 := hlt
    omega
  · intro i t hbit o hc
    have hval : (127 : Nat) = i.val := hc
    have hi : i.val < 64 := i.isLt
    omega

theorem inv_swAddPacket (s : SWState) (i j : Nat) (h : SWState.Inv s) :
    SWState.Inv (SWState.swAddPacket s i j) := by
  obtain ⟨hPid, hUniq, hFree, hRange⟩ := h
  rw [SWState.swAddPacket]
  split
  · rename_i hc
    have hkey : ∀ i' : Fin N,
        ((Function.update s.input_ports ⟨i, hc.1⟩
            ((s.input_ports ⟨i, hc.1⟩).addPacket j)) i').port_id =
          (s.input_ports i').port_id ∧
        ((Function.update s.input_ports ⟨i, hc.1⟩
            ((s.input_ports ⟨i, hc.1⟩).addPacket j)) i').availability =
          (s.input_ports i').availability := by
      intro i'
      by_cases hii : i' = (⟨i, hc.1⟩ : Fin N)
      · subst hii
        rw [Function.update_same]
        exact ⟨(addPacket_pid_avail _ j 1).1, (addPacket_pid_avail _ j 1).2⟩
      · rw [Function.update_noteq hii]
        exact ⟨rfl, rfl⟩
    refine ⟨?_, hUniq, ?_, hRange⟩
    · intro i'
      exact ((hkey i').1).trans (hPid i')
    · intro i' t hbit o
      refine hFree i' t ?_ o
      rw [← (hkey i').2]
      exact hbit
  · exact ⟨hPid, hUniq, hFree, hRange⟩

theorem proposePhase_spec :
    ∀ (L : List (Fin N)) (ins : Fin N → InputPort),
      (∀ i : Fin N,
        ((SWState.proposePhase ins L).1 i).port_id = (ins i).port_id ∧
        ((SWState.proposePhase ins L).1 i).availability =
          (ins i).availability) ∧
      (∀ p ∈ (SWState.proposePhase ins L).2,
        p.valid = true ∧ p.output_id < N ∧
        ∃ i₀ : Fin N, i₀ ∈ L ∧ p.input_id = (ins i₀).port_id ∧
          p.availability = (ins i₀).availability) ∧
      ((SWState.proposePhase ins L).2.map (fun p => p.input_id)).Sublist
        (L.map (fun i => (ins i).port_id)) := by
  intro L
  induction L with
  | nil =>
    intro ins
    refine ⟨fun i => ⟨rfl, rfl⟩, ?_, ?_⟩
    · intro p hp
      exact absurd hp (List.not_mem_nil p)
    · exact List.nil_sublist _
  | cons i rest ih =>
    intro ins
    have hgen := genLoop_spec N (ins i)
    have hU : ∀ j : Fin N,
        ((Function.update ins i (ins i).generateProposal.2) j).port_id =
          (ins j).port_id ∧
        ((Function.update ins i (ins i).generateProposal.2) j).availability =
          (ins j).availability := by
      intro j
      by_cases hji : j = i
      · subst hji
        rw [Function.update_same]
        exact ⟨hgen.2.2.1, hgen.2.2.2.2.1⟩
      · rw [Function.update_noteq hji]
        exact ⟨rfl, rfl⟩
    obtain ⟨ih1, ih2, ih3⟩ :=
      ih (Function.update ins i (ins i).generateProposal.2)
    simp only [SWState.proposePhase]
    refine ⟨?_, ?_, ?_⟩
    · intro j
      exact ⟨((ih1 j).1).trans (hU j).1, ((ih1 j).2).trans (hU j).2⟩
    · intro p hp
      rcases List.mem_append.1 hp with hp | hp
      · split at hp
        · rename_i hcond
          have hpe : p = (ins i).generateProposal.1 := List.mem_singleton.1 hp
          subst hpe
          refine ⟨hcond.1, hcond.2.2, i, List.mem_cons_self i rest, ?_, ?_⟩
          · exact (hgen.1 hcond.1).1
          · exact (hgen.1 hcond.1).2.1
        · exact absurd hp (List.not_mem_nil p)
      · obtain ⟨hv, ho, i₀, hi₀mem, hpid, havail⟩ := ih2 p hp
        exact ⟨hv, ho, i₀, List.mem_cons_of_mem i hi₀mem,
          hpid.trans (hU i₀).1, havail.trans (hU i₀).2⟩
    · rw [List.map_append, List.map_cons]
      have hmapeq :
          rest.map (fun i' =>
            ((Function.update ins i (ins i).generateProposal.2) i').port_id) =
            rest.map (fun i' => (ins i').port_id) :=
        List.map_congr_left (fun a _ => (hU a).1)
      rw [hmapeq] at ih3
      split
      · rename_i hcond
        simp only [List.map_cons, List.map_nil, List.cons_append,
          List.nil_append]
        have hins : (ins i).generateProposal.1.input_id = (ins i).port_id :=
          (hgen.1 hcond.1).1
        rw [hins]
        exact ih3.cons₂ _
      · simp only [List.map_nil, List.nil_append]
        exact ih3.cons _

theorem processProposals_shape (o : OutputPort) (props : List Proposal) :
    ((o.processProposals props).1 = [] ∧ (o.processProposals props).2 = o) ∨
    ∃ p s, p ∈ props ∧ p.valid = true ∧ s < T ∧
      p.availability.testBit s = true ∧
      (o.processProposals props).1 =
        [{ output_id := o.port_id, input_id := p.input_id,
            time_slot := s, valid := true }] ∧
      (∀ t : Fin T, (o.processProposals props).2.calendar.schedule t =
        if t.val = s then p.input_id else o.calendar.schedule t) := by
  cases hscan : OutputPort.ffaScan o.calendar.availability
      (OutputPort.sortTopK (min props.length KNOCKOUT_THRESH) props) with
  | none =>
    left
    constructor <;> simp only [OutputPort.processProposals, hscan]
  | some val =>
    obtain ⟨q, slot⟩ := val
    right
    obtain ⟨l1, l2, hsplit, hfront, hqval, hsloteq, hslotne⟩ :=
      ffaScan_some hscan
    have hqmem : q ∈ props := by
      refine sortTopK_subset (min props.length KNOCKOUT_THRESH) props q ?_
      rw [hsplit]
      exact List.mem_append_right _ (List.mem_cons_self _ _)
    have hffs := find_first_set_spec
      (q.availability &&& o.calendar.availability)
    rcases hffs with ⟨heq, _⟩ | ⟨hlt, hbit, hminb⟩
    · rw [first_fit_accept] at hsloteq
      rw [heq] at hsloteq
      exact absurd hsloteq hslotne
    · have hslotT : slot < T := by
        rw [hsloteq, first_fit_accept]
        exact hlt
      have hbits := hbit
      rw [Nat.testBit_and, Bool.and_eq_true] at hbits
      have hqbit : q.availability.testBit slot = true := by
        rw [hsloteq, first_fit_accept]
        exact hbits.1
      refine ⟨q, slot, hqmem, hqval, hslotT, hqbit, ?_, ?_⟩
      · simp only [OutputPort.processProposals, hscan]
      · intro t
        have hpp2 : (o.processProposals props).2 =
            { o with calendar :=
                { schedule := fun t' =>
                    if t'.val = slot then q.input_id
                    else o.calendar.schedule t'
                  availability := clearBit o.calendar.availability slot } } := by
          simp only [OutputPort.processProposals, hscan]
        rw [hpp2]

theorem routeAccepts_nil (ins : Fin N → InputPort) :
    SWState.routeAccepts ins [] = ins := rfl

theorem routeAccepts_single (ins : Fin N → InputPort) (a : Accept)
    (hv : a.valid = true) (hi : a.input_id < N) :
    SWState.routeAccepts ins [a] =
      Function.update ins ⟨a.input_id, hi⟩
        ((ins ⟨a.input_id, hi⟩).processAccept a) := by
  show (if h : a.valid = true ∧ a.input_id < N then
      Function.update ins ⟨a.input_id, h.2⟩
        ((ins ⟨a.input_id, h.2⟩).processAccept a)
    else ins) = _
  rw [dif_pos ⟨hv, hi⟩]

theorem inv_accept_step (ins : Fin N → InputPort) (outs : Fin N → OutputPort)
    (o : Fin N) (op' : OutputPort) (p : Proposal) (s : Nat)
    (hplt : p.input_id < N) (hsT : s < T)
    (hIbit : (ins ⟨p.input_id, hplt⟩).availability.testBit s = true)
    (hsched2 : ∀ t : Fin T, op'.calendar.schedule t =
      if t.val = s then p.input_id else (outs o).calendar.schedule t)
    (hPid : SWState.InvPid ins) (hUniq : SWState.InvUniq outs)
    (hFree : SWState.InvFree ins outs) (hRange : SWState.InvRange outs)
    (a : Accept) (hav : a.valid = true) (hat : a.time_slot = s) :
    SWState.InvPid (Function.update ins ⟨p.input_id, hplt⟩
        ((ins ⟨p.input_id, hplt⟩).processAccept a)) ∧
    SWState.InvUniq (Function.update outs o op') ∧
    SWState.InvFree (Function.update ins ⟨p.input_id, hplt⟩
        ((ins ⟨p.input_id, hplt⟩).processAccept a))
      (Function.update outs o op') ∧
    SWState.InvRange (Function.update outs o op') := by
  have haT : a.time_slot < T := by rw [hat]; exact hsT
  have hfree : ∀ o' : Fin N,
      (outs o').calendar.schedule ⟨s, hsT⟩ ≠ p.input_id :=
    fun o' => hFree ⟨p.input_id, hplt⟩ ⟨s, hsT⟩ hIbit o'
  have hval : ∀ (o₃ : Fin N) (t : Fin T),
      (Function.update outs o op' o₃).calendar.schedule t =
        if o₃ = o then
          (if t.val = s then p.input_id else (outs o).calendar.schedule t)
        else (outs o₃).calendar.schedule t := by
    intro o₃ t
    by_cases ho₃ : o₃ = o
    · subst ho₃
      rw [Function.update_same, hsched2 t, if_pos rfl]
    · rw [Function.update_noteq ho₃, if_neg ho₃]
  refine ⟨?_, ?_, ?_, ?_⟩
  · intro j
    by_cases hj : j = (⟨p.input_id, hplt⟩ : Fin N)
    · subst hj
      rw [Function.update_same, processAccept_pid]
      exact hPid _
    · rw [Function.update_noteq hj]
      exact hPid j
  · intro o₁ o₂ t hlt heq
    rw [hval o₁ t] at hlt
    rw [hval o₂ t, hval o₁ t] at heq
    by_cases h1 : o₁ = o
    · subst h1
      rw [if_pos rfl] at hlt heq
      by_cases h2 : o₂ = o₁
      · exact h2
      · rw [if_neg h2] at heq
        by_cases hts : t.val = s
        · rw [if_pos hts] at heq
          have ht : t = ⟨s, hsT⟩ := Fin.ext hts
          rw [ht] at heq
          exact absurd heq (hfree o₂)
        · rw [if_neg hts] at heq hlt
          exact hUniq o₁ o₂ t hlt heq
    · rw [if_neg h1] at hlt heq
      by_cases h2 : o₂ = o
      · subst h2
        rw [if_pos rfl] at heq
        by_cases hts : t.val = s
        · rw [if_pos hts] at heq
          have ht : t = ⟨s, hsT⟩ := Fin.ext hts
          rw [ht] at heq
          exact absurd heq.symm (hfree o₁)
        · rw [if_neg hts] at heq
          exact hUniq o₁ o₂ t hlt heq
      · rw [if_neg h2] at heq
        exact hUniq o₁ o₂ t hlt heq
  · intro i t hbit o₁
    rw [hval o₁ t]
    by_cases hii : i = (⟨p.input_id, hplt⟩ : Fin N)
    · subst hii
      rw [Function.update_same,
        processAccept_avail _ _ hav haT, hat] at hbit
      by_cases hts : t.val = s
      · rw [hts, clearBit_testBit_self hsT] at hbit
        exact absurd hbit (by simp)
      · rw [clearBit_testBit_of_ne t.isLt hts] at hbit
        by_cases ho₁ : o₁ = o
        · subst ho₁
          rw [if_pos rfl, if_neg hts]
          exact hFree _ t hbit o₁
        · rw [if_neg ho₁]
          exact hFree _ t hbit o₁
    · rw [Function.update_noteq hii] at hbit
      by_cases ho₁ : o₁ = o
      · subst ho₁
        rw [if_pos rfl]
        by_cases hts : t.val = s
        · rw [if_pos hts]
          intro hcon
          exact hii (Fin.ext hcon.symm)
        · rw [if_neg hts]
          exact hFree i t hbit o₁
      · rw [if_neg ho₁]
        exact hFree i t hbit o₁
  · intro o₁ t
    rw [hval o₁ t]
    by_cases ho₁ : o₁ = o
    · subst ho₁
      rw [if_pos rfl]
      by_cases hts : t.val = s
      · rw [if_pos hts]
        exact Or.inl hplt
      · rw [if_neg hts]
        exact hRange o₁ t
    · rw [if_neg ho₁]
      exact hRange o₁ t

theorem acceptPhase_inv :
    ∀ (L : List (Fin N)) (props : List Proposal) (ins : Fin N → InputPort)
      (outs : Fin N → OutputPort),
      L.Nodup →
      (props.map (fun p => p.input_id)).Nodup →
      (∀ p ∈ props, p.input_id < N) →
      (∀ p ∈ props, ∀ hp : p.input_id < N, ∀ o : Fin N, o ∈ L →
        p.output_id = o.val →
        p.availability = (ins ⟨p.input_id, hp⟩).availability) →
      SWState.InvPid ins → SWState.InvUniq outs →
      SWState.InvFree ins outs → SWState.InvRange outs →
      SWState.InvPid (SWState.acceptPhase props L ins outs).1 ∧
      SWState.InvUniq (SWState.acceptPhase props L ins outs).2 ∧
      SWState.InvFree (SWState.acceptPhase props L ins outs).1
        (SWState.acceptPhase props L ins outs).2 ∧
      SWState.InvRange (SWState.acceptPhase props L ins outs).2 := by
  intro L
  induction L with
  | nil =>
    intro props ins outs _ _ _ _ hPid hUniq hFree hRange
    exact ⟨hPid, hUniq, hFree, hRange⟩
  | cons o rest ih =>
    intro props ins outs hnd hnodup hidlt hsnap hPid hUniq hFree hRange
    have hndr := List.nodup_cons.1 hnd
    simp only [SWState.acceptPhase]
    rcases processProposals_shape (outs o)
        (props.filter (fun p => p.output_id = o.val)) with
      ⟨h1, h2⟩ | ⟨p, s, hpmem, hpvalid, hsT, hpbit, hacc1, hsched2⟩
    · rw [h1, routeAccepts_nil, h2, Function.update_eq_self]
      exact ih props ins outs hndr.2 hnodup hidlt
        (fun p hp hplt o' ho' =>
          hsnap p hp hplt o' (List.mem_cons_of_mem o ho'))
        hPid hUniq hFree hRange
    · have hpprops := List.mem_filter.1 hpmem
      have hpout : p.output_id = o.val := of_decide_eq_true hpprops.2
      have hplt : p.input_id < N := hidlt p hpprops.1
      rw [hacc1, routeAccepts_single ins
        { output_id := (outs o).port_id, input_id := p.input_id,
          time_slot := s, valid := true } rfl hplt]
      have hsnap_p : p.availability =
          (ins ⟨p.input_id, hplt⟩).availability :=
        hsnap p hpprops.1 hplt o (List.mem_cons_self o rest) hpout
      have hIbit : (ins ⟨p.input_id, hplt⟩).availability.testBit s = true := by
        rw [← hsnap_p]
        exact hpbit
      obtain ⟨hP1, hP2, hP3, hP4⟩ := inv_accept_step ins outs o
        ((outs o).processProposals
          (props.filter (fun p => p.output_id = o.val))).2 p s hplt hsT
        hIbit hsched2 hPid hUniq hFree hRange
        { output_id := (outs o).port_id, input_id := p.input_id,
          time_slot := s, valid := true } rfl rfl
      have hsnap' : ∀ p' ∈ props, ∀ hp' : p'.input_id < N, ∀ o' : Fin N,
          o' ∈ rest → p'.output_id = o'.val →
          p'.availability =
            (Function.update ins ⟨p.input_id, hplt⟩
              ((ins ⟨p.input_id, hplt⟩).processAccept
                { output_id := (outs o).port_id, input_id := p.input_id,
                  time_slot := s, valid := true })
              ⟨p'.input_id, hp'⟩).availability := by
        intro p' hp'mem hp' o' ho' hp'out
        have hne : (⟨p'.input_id, hp'⟩ : Fin N) ≠ ⟨p.input_id, hplt⟩ := by
          intro hcon
          have hideq : p'.input_id = p.input_id := congrArg Fin.val hcon
          have hpp' : p' = p :=
            List.inj_on_of_nodup_map hnodup hp'mem hpprops.1 hideq
          subst hpp'
          have hoo : o = o' := Fin.ext (hpout.symm.trans hp'out)
          refine hndr.1 ?_
          rw [hoo]
          exact ho'
        rw [Function.update_noteq hne]
        exact hsnap p' hp'mem hp' o' (List.mem_cons_of_mem o ho') hp'out
      exact ih props _ _ hndr.2 hnodup hidlt hsnap' hP1 hP2 hP3 hP4

theorem inv_runIteration (s : SWState) (h : SWState.Inv s) :
    SWState.Inv (SWState.runIteration s) := by
  obtain ⟨hPid, hUniq, hFree, hRange⟩ := h
  obtain ⟨hfields, hprops, hsub⟩ :=
    proposePhase_spec (List.finRange N) s.input_ports
  have hpidmap :
      (List.finRange N).map (fun i => (s.input_ports i).port_id) =
        (List.finRange N).map (fun i : Fin N => i.val) :=
    List.map_congr_left (fun a _ => hPid a)
  have hvalnodup : ((List.finRange N).map (fun i : Fin N => i.val)).Nodup :=
    (List.nodup_finRange N).map Fin.val_injective
  have hnodup : ((SWState.proposePhase s.input_ports
      (List.finRange N)).2.map (fun p => p.input_id)).Nodup := by
    refine List.Nodup.sublist hsub ?_
    rw [hpidmap]
    exact hvalnodup
  have hidlt : ∀ p ∈ (SWState.proposePhase s.input_ports
      (List.finRange N)).2, p.input_id < N := by
    intro p hp
    obtain ⟨_, _, i₀, _, hpid, _⟩ := hprops p hp
    rw [hpid, hPid i₀]
    exact i₀.isLt
  have hsnap : ∀ p ∈ (SWState.proposePhase s.input_ports
      (List.finRange N)).2, ∀ hp : p.input_id < N, ∀ o : Fin N,
      o ∈ List.finRange N → p.output_id = o.val →
      p.availability =
        ((SWState.proposePhase s.input_ports (List.finRange N)).1
          ⟨p.input_id, hp⟩).availability := by
    intro p hp hplt o _ _
    obtain ⟨_, _, i₀, _, hpid, havail⟩ := hprops p hp
    have hi₀ : (⟨p.input_id, hplt⟩ : Fin N) = i₀ := by
      apply Fin.ext
      show p.input_id = i₀.val
      rw [hpid, hPid i₀]
    rw [hi₀, (hfields i₀).2]
    exact havail
  have hPid' : SWState.InvPid (SWState.proposePhase s.input_ports
      (List.finRange N)).1 :=
    fun i => ((hfields i).1).trans (hPid i)
  have hFree' : SWState.InvFree (SWState.proposePhase s.input_ports
      (List.finRange N)).1 s.output_ports := by
    intro i t hbit o
    refine hFree i t ?_ o
    rw [← (hfields i).2]
    exact hbit
  have hmain := acceptPhase_inv (List.finRange N)
    (SWState.proposePhase s.input_ports (List.finRange N)).2
    (SWState.proposePhase s.input_ports (List.finRange N)).1
    s.output_ports (List.nodup_finRange N) hnodup hidlt hsnap
    hPid' hUniq hFree' hRange
  exact ⟨hmain.1, hmain.2.1, hmain.2.2.1, hmain.2.2.2⟩

theorem gradOutputs_spec (m : Fin N → Nat) :
    ∀ (L : List (Fin N)) (ins : Fin N → InputPort)
      (outs : Fin N → OutputPort),
      L.Nodup →
      (∀ (i : Fin N) (o₁ o₂ : Fin N), o₁ ∈ L → o₂ ∈ L →
        (outs o₁).calendar.schedule ⟨0, by decide⟩ = i.val →
        (outs o₂).calendar.schedule ⟨0, by decide⟩ = i.val → o₁ = o₂) →
      (∀ o : Fin N,
        (SWState.gradOutputs m L ins outs).2 o =
          if o ∈ L then ((outs o).graduateSlot).2 else outs o) ∧
      (∀ i : Fin N,
        ((∃ o₂, o₂ ∈ L ∧
            (outs o₂).calendar.schedule ⟨0, by decide⟩ = i.val) →
          (SWState.gradOutputs m L ins outs).1 i =
            (ins i).graduateSlot true 0) ∧
        ((¬ ∃ o₂, o₂ ∈ L ∧
            (outs o₂).calendar.schedule ⟨0, by decide⟩ = i.val) →
          (SWState.gradOutputs m L ins outs).1 i = ins i)) := by
  intro L
  induction L with
  | nil =>
    intro ins outs _ _
    refine ⟨fun o => ?_, fun i => ⟨fun hex => ?_, fun _ => rfl⟩⟩
    · rw [if_neg (List.not_mem_nil o)]
      rfl
    · obtain ⟨o₂, ho₂, _⟩ := hex
      exact absurd ho₂ (List.not_mem_nil o₂)
  | cons o rest ih =>
    intro ins outs hnd huniq
    have hndr := List.nodup_cons.1 hnd
    have houts1 : ∀ o' : Fin N, o' ∈ rest →
        Function.update outs o ((outs o).graduateSlot).2 o' = outs o' := by
      intro o' ho'
      have hne : o' ≠ o := fun hc => hndr.1 (by rw [← hc]; exact ho')
      rw [Function.update_noteq hne]
    have huniq' : ∀ (i : Fin N) (o₁ o₂ : Fin N), o₁ ∈ rest → o₂ ∈ rest →
        (Function.update outs o ((outs o).graduateSlot).2 o₁).calendar.schedule
          ⟨0, by decide⟩ = i.val →
        (Function.update outs o ((outs o).graduateSlot).2 o₂).calendar.schedule
          ⟨0, by decide⟩ = i.val → o₁ = o₂ := by
      intro i o₁ o₂ h1 h2 e1 e2
      rw [houts1 o₁ h1] at e1
      rw [houts1 o₂ h2] at e2
      exact huniq i o₁ o₂ (List.mem_cons_of_mem o h1)
        (List.mem_cons_of_mem o h2) e1 e2
    have hmatch : ∀ i : Fin N,
        (outs o).calendar.schedule ⟨0, by decide⟩ = i.val →
        (if ((outs o).graduateSlot).1 ≠ INVALID_PORT then
            if h : ((outs o).graduateSlot).1 < N then
              Function.update ins ⟨((outs o).graduateSlot).1, h⟩
                ((ins ⟨((outs o).graduateSlot).1, h⟩).graduateSlot true o.val)
            else ins
          else ins) i = (ins i).graduateSlot true 0 := by
      intro i hv
      have hlt : ((outs o).graduateSlot).1 < N := by
        show (outs o).calendar.schedule ⟨0, by decide⟩ < N
        rw [hv]
        exact i.isLt
      have hinv : ((outs o).graduateSlot).1 ≠ INVALID_PORT := by
        show ¬ (outs o).calendar.schedule ⟨0, by decide⟩ = INVALID_PORT
        rw [hv]
        intro hc
        have h1 : i.val < 64 := i.isLt
        have h2 : i.val = 127 := hc
        omega
      rw [if_pos hinv, dif_pos hlt]
      have hfi : (⟨((outs o).graduateSlot).1, hlt⟩ : Fin N) = i :=
        Fin.ext hv
      rw [hfi, Function.update_same]
      rfl
    have hnomatch : ∀ i : Fin N,
        ¬ (outs o).calendar.schedule ⟨0, by decide⟩ = i.val →
        (if ((outs o).graduateSlot).1 ≠ INVALID_PORT then
            if h : ((outs o).graduateSlot).1 < N then
              Function.update ins ⟨((outs o).graduateSlot).1, h⟩
                ((ins ⟨((outs o).graduateSlot).1, h⟩).graduateSlot true o.val)
            else ins
          else ins) i = ins i := by
      intro i hv
      by_cases hinv : ((outs o).graduateSlot).1 ≠ INVALID_PORT
      · rw [if_pos hinv]
        by_cases hlt : ((outs o).graduateSlot).1 < N
        · rw [dif_pos hlt]
          have hne : i ≠ (⟨((outs o).graduateSlot).1, hlt⟩ : Fin N) := by
            intro hc
            exact hv (congrArg Fin.val hc.symm)
          rw [Function.update_noteq hne]
        · rw [dif_neg hlt]
      · rw [if_neg hinv]
    obtain ⟨ihout, ihin⟩ := ih
      (if ((outs o).graduateSlot).1 ≠ INVALID_PORT then
        if h : ((outs o).graduateSlot).1 < N then
          Function.update ins ⟨((outs o).graduateSlot).1, h⟩
            ((ins ⟨((outs o).graduateSlot).1, h⟩).graduateSlot true o.val)
        else ins
      else ins)
      (Function.update outs o ((outs o).graduateSlot).2)
      hndr.2 huniq'
    have hout1 : ∀ o' : Fin N,
        (SWState.gradOutputs m (o :: rest) ins outs).2 o' =
          if o' ∈ rest
          then ((Function.update outs o ((outs o).graduateSlot).2
            o').graduateSlot).2
          else Function.update outs o ((outs o).graduateSlot).2 o' :=
      fun o' => ihout o'
    have hih1 : ∀ i : Fin N,
        (∃ o₂, o₂ ∈ rest ∧
          (Function.update outs o ((outs o).graduateSlot).2
            o₂).calendar.schedule ⟨0, by decide⟩ = i.val) →
        (SWState.gradOutputs m (o :: rest) ins outs).1 i =
          ((if ((outs o).graduateSlot).1 ≠ INVALID_PORT then
              if h : ((outs o).graduateSlot).1 < N then
                Function.update ins ⟨((outs o).graduateSlot).1, h⟩
                  ((ins ⟨((outs o).graduateSlot).1, h⟩).graduateSlot
                    true o.val)
              else ins
            else ins) i).graduateSlot true 0 :=
      fun i => (ihin i).1
    have hih2 : ∀ i : Fin N,
        (¬ ∃ o₂, o₂ ∈ rest ∧
          (Function.update outs o ((outs o).graduateSlot).2
            o₂).calendar.schedule ⟨0, by decide⟩ = i.val) →
        (SWState.gradOutputs m (o :: rest) ins outs).1 i =
          (if ((outs o).graduateSlot).1 ≠ INVALID_PORT then
              if h : ((outs o).graduateSlot).1 < N then
                Function.update ins ⟨((outs o).graduateSlot).1, h⟩
                  ((ins ⟨((outs o).graduateSlot).1, h⟩).graduateSlot
                    true o.val)
              else ins
            else ins) i :=
      fun i => (ihin i).2
    refine ⟨fun o' => ?_, fun i => ⟨?_, ?_⟩⟩
    · rw [hout1 o']
      by_cases ho' : o' = o
      · rw [ho', if_neg hndr.1, Function.update_same,
          if_pos (List.mem_cons_self o rest)]
      · rw [Function.update_noteq ho']
        by_cases hmem : o' ∈ rest
        · rw [if_pos hmem, if_pos (List.mem_cons_of_mem o hmem)]
        · rw [if_neg hmem, if_neg
            (show o' ∉ o :: rest from
              fun hc => (List.mem_cons.1 hc).elim ho' hmem)]
    · intro hex
      obtain ⟨o', ho'mem, ho'val⟩ := hex
      rcases List.mem_cons.1 ho'mem with heq | ho'rest
      · have hv : (outs o).calendar.schedule ⟨0, by decide⟩ = i.val := by
          rw [← heq]
          exact ho'val
        have hnorest : ¬ ∃ o₂, o₂ ∈ rest ∧
            (Function.update outs o ((outs o).graduateSlot).2
              o₂).calendar.schedule ⟨0, by decide⟩ = i.val := by
          rintro ⟨o₂, ho₂, he₂⟩
          have ho₂ne : o₂ ≠ o := fun hc => hndr.1 (by rw [← hc]; exact ho₂)
          rw [Function.update_noteq ho₂ne] at he₂
          have hoo : o = o₂ := huniq i o o₂ (List.mem_cons_self o rest)
            (List.mem_cons_of_mem o ho₂) hv he₂
          exact hndr.1 (by rw [hoo]; exact ho₂)
        rw [hih2 i hnorest]
        exact hmatch i hv
      · have hex' : ∃ o₂, o₂ ∈ rest ∧
            (Function.update outs o ((outs o).graduateSlot).2
              o₂).calendar.schedule ⟨0, by decide⟩ = i.val := by
          refine ⟨o', ho'rest, ?_⟩
          rw [houts1 o' ho'rest]
          exact ho'val
        rw [hih1 i hex']
        have hvne : ¬ (outs o).calendar.schedule ⟨0, by decide⟩ = i.val := by
          intro hv
          have hoo : o = o' := huniq i o o' (List.mem_cons_self o rest)
            (List.mem_cons_of_mem o ho'rest) hv ho'val
          exact hndr.1 (by rw [hoo]; exact ho'rest)
        rw [hnomatch i hvne]
    · intro hnex
      have hvne : ¬ (outs o).calendar.schedule ⟨0, by decide⟩ = i.val :=
        fun hv => hnex ⟨o, List.mem_cons_self o rest, hv⟩
      have hnex' : ¬ ∃ o₂, o₂ ∈ rest ∧
          (Function.update outs o ((outs o).graduateSlot).2
            o₂).calendar.schedule ⟨0, by decide⟩ = i.val := by
        rintro ⟨o₂, ho₂, he₂⟩
        rw [houts1 o₂ ho₂] at he₂
        exact hnex ⟨o₂, List.mem_cons_of_mem o ho₂, he₂⟩
      rw [hih2 i hnex']
      exact hnomatch i hvne

theorem gradUnmatched_spec (m : Fin N → Nat) :
    ∀ (L : List (Fin N)) (ins : Fin N → InputPort),
      L.Nodup →
      ∀ i : Fin N,
        ((i ∈ L ∧ ¬ ∃ o : Fin N, m o = i.val) →
          SWState.gradUnmatched m L ins i = (ins i).graduateSlot true 0) ∧
        ((i ∉ L ∨ ∃ o : Fin N, m o = i.val) →
          SWState.gradUnmatched m L ins i = ins i) := by
  intro L
  induction L with
  | nil =>
    intro ins _ i
    exact ⟨fun h => absurd h.1 (List.not_mem_nil i), fun _ => rfl⟩
  | cons j rest ih =>
    intro ins hnd i
    have hndr := List.nodup_cons.1 hnd
    have ihh := ih
      (if decide (∃ o : Fin N, m o = j.val) = true then ins
        else Function.update ins j
          ((ins j).graduateSlot false INVALID_PORT)) hndr.2 i
    have h1 : (i ∈ rest ∧ ¬ ∃ o : Fin N, m o = i.val) →
        SWState.gradUnmatched m (j :: rest) ins i =
          ((if decide (∃ o : Fin N, m o = j.val) = true then ins
            else Function.update ins j
              ((ins j).graduateSlot false INVALID_PORT))
            i).graduateSlot true 0 := ihh.1
    have h2 : (i ∉ rest ∨ ∃ o : Fin N, m o = i.val) →
        SWState.gradUnmatched m (j :: rest) ins i =
          (if decide (∃ o : Fin N, m o = j.val) = true then ins
            else Function.update ins j
              ((ins j).graduateSlot false INVALID_PORT)) i := ihh.2
    have hITne : i ≠ j →
        (if decide (∃ o : Fin N, m o = j.val) = true then ins
          else Function.update ins j
            ((ins j).graduateSlot false INVALID_PORT)) i = ins i := by
      intro hij
      by_cases hm : ∃ o : Fin N, m o = j.val
      · rw [if_pos (decide_eq_true hm)]
      · rw [if_neg (fun hc => hm (of_decide_eq_true hc)),
          Function.update_noteq hij]
    refine ⟨?_, ?_⟩
    · rintro ⟨hmem, hnm⟩
      rcases List.mem_cons.1 hmem with heq | hrest
      · have hin : i ∉ rest := fun hc => hndr.1 (by rw [← heq]; exact hc)
        rw [h2 (Or.inl hin), heq]
        have hnm' : ¬ ∃ o : Fin N, m o = j.val := by
          rintro ⟨o, ho⟩
          exact hnm ⟨o, by rw [heq]; exact ho⟩
        rw [if_neg (fun hc => hnm' (of_decide_eq_true hc)),
          Function.update_same]
        rfl
      · have hne : i ≠ j := fun hc => hndr.1 (by rw [← hc]; exact hrest)
        rw [h1 ⟨hrest, hnm⟩, hITne hne]
    · intro h
      have hor : i ∉ rest ∨ ∃ o : Fin N, m o = i.val :=
        h.elim (fun hn => Or.inl (fun hc => hn (List.mem_cons_of_mem j hc)))
          Or.inr
      rw [h2 hor]
      by_cases hij : i = j
      · rcases h with hn | hm
        · exact absurd (by rw [hij]; exact List.mem_cons_self j rest) hn
        · have hm' : ∃ o : Fin N, m o = j.val := by
            obtain ⟨o, ho⟩ := hm
            exact ⟨o, by rw [← hij]; exact ho⟩
          rw [hij, if_pos (decide_eq_true hm')]
      · exact hITne hij

theorem inv_graduateMatching (s : SWState) (h : SWState.Inv s) :
    SWState.Inv (SWState.graduateMatching s).2 := by
  obtain ⟨hPid, hUniq, hFree, hRange⟩ := h
  have huniq0 : ∀ (i : Fin N) (o₁ o₂ : Fin N), o₁ ∈ List.finRange N →
      o₂ ∈ List.finRange N →
      (s.output_ports o₁).calendar.schedule ⟨0, by decide⟩ = i.val →
      (s.output_ports o₂).calendar.schedule ⟨0, by decide⟩ = i.val →
      o₁ = o₂ := by
    intro i o₁ o₂ _ _ e1 e2
    have hlt : (s.output_ports o₁).calendar.schedule ⟨0, by decide⟩ < N := by
      rw [e1]
      exact i.isLt
    exact (hUniq o₁ o₂ ⟨0, by decide⟩ hlt (e2.trans e1.symm)).symm
  obtain ⟨hgout, hgin⟩ := gradOutputs_spec
    (fun o => (s.output_ports o).calendar.schedule ⟨0, by decide⟩)
    (List.finRange N) s.input_ports s.output_ports
    (List.nodup_finRange N) huniq0
  have hgu := gradUnmatched_spec
    (fun o => (s.output_ports o).calendar.schedule ⟨0, by decide⟩)
    (List.finRange N)
    (SWState.gradOutputs
      (fun o => (s.output_ports o).calendar.schedule ⟨0, by decide⟩)
      (List.finRange N) s.input_ports s.output_ports).1
    (List.nodup_finRange N)
  have houts : ∀ o : Fin N,
      (SWState.graduateMatching s).2.output_ports o =
        ((s.output_ports o).graduateSlot).2 := by
    intro o
    have h1 := hgout o
    rw [if_pos (List.mem_finRange o)] at h1
    exact h1
  have hins : ∀ i : Fin N,
      (SWState.graduateMatching s).2.input_ports i =
        (s.input_ports i).graduateSlot true 0 := by
    intro i
    by_cases hm : ∃ o : Fin N,
        (s.output_ports o).calendar.schedule ⟨0, by decide⟩ = i.val
    · have hg1 : (SWState.gradOutputs
          (fun o => (s.output_ports o).calendar.schedule ⟨0, by decide⟩)
          (List.finRange N) s.input_ports s.output_ports).1 i =
          (s.input_ports i).graduateSlot true 0 := by
        refine (hgin i).1 ?_
        obtain ⟨o, ho⟩ := hm
        exact ⟨o, List.mem_finRange o, ho⟩
      have hg2 := (hgu i).2 (Or.inr hm)
      exact hg2.trans hg1
    · have hg1 : (SWState.gradOutputs
          (fun o => (s.output_ports o).calendar.schedule ⟨0, by decide⟩)
          (List.finRange N) s.input_ports s.output_ports).1 i =
          s.input_ports i := by
        refine (hgin i).2 ?_
        rintro ⟨o, _, ho⟩
        exact hm ⟨o, ho⟩
      have hg2 := (hgu i).1 ⟨List.mem_finRange i, hm⟩
      rw [hg1] at hg2
      exact hg2
  have hsched : ∀ (o : Fin N) (t : Fin T),
      (((s.output_ports o).graduateSlot).2).calendar.schedule t =
        if ht : t.val + 1 < T then
          (s.output_ports o).calendar.schedule ⟨t.val + 1, ht⟩
        else INVALID_PORT := fun o t => rfl
  refine ⟨?_, ?_, ?_, ?_⟩
  · intro i
    rw [hins i]
    exact hPid i
  · intro o₁ o₂ t hlt heq
    rw [houts o₁, hsched o₁ t] at hlt
    rw [houts o₁, houts o₂, hsched o₁ t, hsched o₂ t] at heq
    by_cases ht : t.val + 1 < T
    · rw [dif_pos ht] at hlt heq
      rw [dif_pos ht] at heq
      exact hUniq o₁ o₂ ⟨t.val + 1, ht⟩ hlt heq
    · rw [dif_neg ht] at hlt
      have hc : (127 : Nat) < 64 := hlt
      omega
  · intro i t hbit o₁
    rw [hins i] at hbit
    rw [houts o₁, hsched o₁ t]
    have hbit' : (((s.input_ports i).availability >>> 1) |||
        (1 <<< (T - 1))).testBit t.val = true := hbit
    by_cases ht : t.val + 1 < T
    · rw [dif_pos ht]
      have hb2 : (s.input_ports i).availability.testBit (t.val + 1) =
          true := by
        rw [← shiftWindow_testBit_of_lt ht]
        exact hbit'
      exact hFree i ⟨t.val + 1, ht⟩ hb2 o₁
    · rw [dif_neg ht]
      intro hc
      have h1 : i.val < 64 := i.isLt
      have h2 : (127 : Nat) = i.val := hc
      omega
  · intro o₁ t
    rw [houts o₁, hsched o₁ t]
    by_cases ht : t.val + 1 < T
    · rw [dif_pos ht]
      exact hRange o₁ ⟨t.val + 1, ht⟩
    · rw [dif_neg ht]
      exact Or.inr rfl

theorem reachable_inv (s : SWState) (h : SWState.Reachable s) :
    SWState.Inv s := by
  induction h with
  | init seed => exact inv_swInit seed
  | add i j _ ih => exact inv_swAddPacket _ i j ih
  | iter _ ih => exact inv_runIteration _ ih
  | grad _ ih => exact inv_graduateMatching _ ih

/-- Claim C1: in every reachable engine state — any seed, any arrival
sequence, any number of iterations and graduations — the matching emitted
by `graduateMatching` for the graduating slot is a partial matching: the
map is from outputs, so each output carries at most one input, and
restricted to non-`INVALID_PORT` entries it is injective, so no input
appears under two different outputs. -/
theorem graduated_matching_partial (s : SWState)
    (h : SWState.Reachable s) :
    ∀ o o' : Fin N,
      (SWState.graduateMatching s).1 o ≠ INVALID_PORT →
      (SWState.graduateMatching s).1 o' = (SWState.graduateMatching s).1 o →
      o' = o := by
  obtain ⟨-, hUniq, -, hRange⟩ := reachable_inv s h
  intro o o' hne heq
  have hm : ∀ o₁ : Fin N, (SWState.graduateMatching s).1 o₁ =
      (s.output_ports o₁).calendar.schedule ⟨0, by decide⟩ :=
    fun o₁ => rfl
  rw [hm o, hm o'] at heq
  rw [hm o] at hne
  rcases hRange o ⟨0, by decide⟩ with hlt | hinv
  · exact hUniq o o' ⟨0, by decide⟩ hlt heq
  · exact absurd hinv hne

/-- Witness for C1 at a concrete reachable state. -/
theorem graduated_matching_partial_witness :
    SWState.Reachable (SWState.swInit 12345) ∧
    (∀ o o' : Fin N,
      (SWState.graduateMatching (SWState.swInit 12345)).1 o ≠
        INVALID_PORT →
      (SWState.graduateMatching (SWState.swInit 12345)).1 o' =
        (SWState.graduateMatching (SWState.swInit 12345)).1 o →
      o' = o) :=
  ⟨SWState.Reachable.init 12345,
    graduated_matching_partial (SWState.swInit 12345)
      (SWState.Reachable.init 12345)⟩

end SWQPS
